import Mathlib

/-!
Verification of the Xen message-channel implementation (`src/python/xen/channel.py`).

The embedding models Python strings as lists of Unicode code points (`List Nat`)
and byte buffers as lists of byte values (`List Nat`, each `< 256`).  The
channel object's mutable fields (`_cnt`, `_buf`, `_off`, `_siz`, `_jobs`)
become the fields of the `Chan` structure; the `_receive` method's
`while True` parse loop becomes a fuel-based recursion (`parseLoopF`) whose
fuel is proved sufficient, so the packaged function `parseLoop` is exactly the
loop's semantics.  Exceptions become explicit `PyErr` values threaded through
`Except`/`Option` results, and the partially mutated object state at the point
an exception is raised is returned next to the error, mirroring Python
semantics where `self` keeps all mutations made before the raise.
-/

namespace Xen

/-- Python exception values that the channel code can raise.
`badMessage` is the `BadMessage(reason)` class of `channel.py`;
`valueError` models the `ValueError` raised by `int(...)` on a non-numeric
string; `unicodeDecodeError` models a failing `bytes.decode("utf-8")`;
`typeError` models `TypeError(reason)`; `attributeError name context` models
the `AttributeError` raised when looking up a missing attribute `name`
while the exception `context` was being handled (Python's `__context__`
chaining). -/
inductive PyErr where
  | badMessage (reason : String)
  | valueError
  | unicodeDecodeError
  | typeError (reason : String)
  | attributeError (attr : String) (context : PyErr)
deriving DecidableEq, Repr

/-- A decoded message triple `(cat, num, msg)` as pushed on the job queue. -/
structure Msg where
  cat : List Nat
  num : Int
  txt : List Nat
deriving DecidableEq, Repr

/-- The loop-local state of `Channel._receive`'s parse loop: the instance
variables `_off` and `_siz` plus the local `consumed` and the job queue
`_jobs` (which `push_job` appends to). -/
structure LoopSt where
  off : Nat
  siz : Int
  consumed : Nat
  jobs : List Msg
deriving DecidableEq, Repr

/-- The state of a `Channel` instance: `_cnt`, `_buf`, `_off`, `_siz`,
`_jobs`, plus `ioClosed`, the closed-state of the underlying transport
`_io` (false at construction; no method of the source class ever closes it,
because the `self.disconnect()` call in the error handler names a method the
class does not define). -/
structure Chan where
  cnt : Nat
  buf : List Nat
  off : Nat
  siz : Int
  jobs : List Msg
  ioClosed : Bool
deriving DecidableEq, Repr

/-- A channel as built by `Channel(io)`: counter 0, empty buffer, offset 0,
size sentinel -1, empty job queue, open transport. -/
def chan0 : Chan := ⟨0, [], 0, -1, [], false⟩

/-! ### UTF-8 codec

`str.encode("utf-8")` / `bytes.decode("utf-8")` on code-point lists.
A code point is a valid Unicode scalar value iff it is below the surrogate
range or between the surrogates and 0x110000; CPython's strict UTF-8 codec
round-trips exactly these. -/

/-- `c` is a Unicode scalar value (encodable by CPython's UTF-8 codec). -/
def ValidScalar (c : Nat) : Prop := c < 0xD800 ∨ (0xE000 ≤ c ∧ c < 0x110000)

instance (c : Nat) : Decidable (ValidScalar c) := by
  unfold ValidScalar; infer_instance

/-- Every code point of `s` is a Unicode scalar value. -/
def ValidText (s : List Nat) : Prop := ∀ c ∈ s, ValidScalar c

instance (s : List Nat) : Decidable (ValidText s) := by
  unfold ValidText; infer_instance

/-- UTF-8 encoding of one code point (1 to 4 bytes). -/
def utf8EncodeChar (c : Nat) : List Nat :=
  if c < 0x80 then [c]
  else if c < 0x800 then [0xC0 + c / 0x40, 0x80 + c % 0x40]
  else if c < 0x10000 then
    [0xE0 + c / 0x1000, 0x80 + c / 0x40 % 0x40, 0x80 + c % 0x40]
  else
    [0xF0 + c / 0x40000, 0x80 + c / 0x1000 % 0x40, 0x80 + c / 0x40 % 0x40,
     0x80 + c % 0x40]

/-- UTF-8 encoding of a code-point list (Python `s.encode("utf-8")`). -/
def utf8Encode : List Nat → List Nat
  | [] => []
  | c :: cs => utf8EncodeChar c ++ utf8Encode cs

/-- A continuation byte `0x80..0xBF`. -/
def contB (b : Nat) : Bool := decide (0x80 ≤ b) && decide (b < 0xC0)

/-- Byte-at-a-time strict UTF-8 decoding state machine.  `needed` is the
number of continuation bytes still required (0 when expecting a lead byte),
`acc` the value accumulated so far and `minv` the smallest code point the
current sequence length may legally encode.  When a sequence completes, the
code point is rejected if it is overlong (`< minv`), a surrogate, or above
0x10FFFF — exactly CPython's strict `utf-8` codec. -/
def utf8Go : List Nat → Nat → Nat → Nat → Option (List Nat)
  | [], needed, _, _ => if needed = 0 then some [] else none
  | b :: rest, needed, acc, minv =>
    if needed = 0 then
      if b < 0x80 then (utf8Go rest 0 0 0).map (b :: ·)
      else if b < 0xC0 then none
      else if b < 0xE0 then utf8Go rest 1 (b - 0xC0) 0x80
      else if b < 0xF0 then utf8Go rest 2 (b - 0xE0) 0x800
      else if b < 0xF8 then utf8Go rest 3 (b - 0xF0) 0x10000
      else none
    else
      if contB b then
        if needed = 1 then
          if minv ≤ acc * 0x40 + (b - 0x80) ∧ acc * 0x40 + (b - 0x80) < 0x110000 ∧
              ¬(0xD800 ≤ acc * 0x40 + (b - 0x80) ∧ acc * 0x40 + (b - 0x80) < 0xE000) then
            (utf8Go rest 0 0 0).map ((acc * 0x40 + (b - 0x80)) :: ·)
          else none
        else utf8Go rest (needed - 1) (acc * 0x40 + (b - 0x80)) minv
      else none

/-- Strict UTF-8 decoding (Python `buf.decode("utf-8")`); `none` models a
raised `UnicodeDecodeError` (wrong lead/continuation bytes, overlong forms,
surrogates, values above 0x10FFFF, or a truncated final sequence). -/
def utf8Decode (bs : List Nat) : Option (List Nat) := utf8Go bs 0 0 0

/-! ### Decimal digits, `str(int)` and `int(str, base=10)` -/

/-- Value of a little-endian base-10 digit list. -/
def listVal : List Nat → Nat
  | [] => 0
  | d :: L => d + 10 * listVal L

/-- Little-endian base-10 digits of `n`, with explicit fuel. -/
def natDigitsF : Nat → Nat → List Nat
  | 0, _ => []
  | fuel + 1, n => if n = 0 then [] else n % 10 :: natDigitsF fuel (n / 10)

/-- Little-endian base-10 digits of `n` (empty for 0). -/
def natDigits (n : Nat) : List Nat := natDigitsF n n

/-- Python `str(n)` for a non-negative `n`, as ASCII code points. -/
def natToStr (n : Nat) : List Nat :=
  if n = 0 then [48] else ((natDigits n).reverse).map (· + 48)

/-- Python `str(i)` for an arbitrary integer, as ASCII code points
(45 is the code of the minus sign). -/
def intToStr (i : Int) : List Nat :=
  if i < 0 then 45 :: natToStr (-i).toNat else natToStr i.toNat

/-- Left fold accumulating `acc := 10 * acc + (byte - 48)` over digit bytes;
this is exactly the accumulation both the header scanner of `_receive` and a
base-10 integer parse perform. -/
def digitsAcc (a : Nat) (ds : List Nat) : Nat :=
  ds.foldl (fun x d => 10 * x + (d - 48)) a

/-- Non-ASCII Unicode whitespace (the part of `Py_UNICODE_ISSPACE` above
127, the only part the decimal-and-space transform consults): NEL 133,
NBSP 160, Ogham space 0x1680, the typographic spaces 0x2000..0x200A, the
line and paragraph separators 0x2028/0x2029, narrow NBSP 0x202F, medium
mathematical space 0x205F and ideographic space 0x3000. -/
def uniSpace (c : Nat) : Bool :=
  decide (c = 133 ∨ c = 160 ∨ c = 0x1680 ∨ (0x2000 ≤ c ∧ c ≤ 0x200A) ∨
    c = 0x2028 ∨ c = 0x2029 ∨ c = 0x202F ∨ c = 0x205F ∨ c = 0x3000)

/-- First code points of the runs of ten consecutive decimal digits in the
Unicode 14.0 database (the one CPython 3.11 ships): general category Nd,
equivalently Numeric_Type=Decimal, the characters `Py_UNICODE_TODECIMAL`
maps to a value 0..9.  Every such run is ten code points long, digit values
0..9 in order, starting at the listed point (0x30 is ASCII; 0x660
Arabic-Indic; 0xFF10 fullwidth; the five 0x1D7xx runs are the mathematical
digit styles; etc.). -/
def ndStarts : List Nat :=
  [0x0030, 0x0660, 0x06F0, 0x07C0, 0x0966, 0x09E6, 0x0A66, 0x0AE6, 0x0B66,
   0x0BE6, 0x0C66, 0x0CE6, 0x0D66, 0x0DE6, 0x0E50, 0x0ED0, 0x0F20, 0x1040,
   0x1090, 0x17E0, 0x1810, 0x1946, 0x19D0, 0x1A80, 0x1A90, 0x1B50, 0x1BB0,
   0x1C40, 0x1C50, 0xA620, 0xA8D0, 0xA900, 0xA9D0, 0xA9F0, 0xAA50, 0xABF0,
   0xFF10, 0x104A0, 0x10D30, 0x11066, 0x110F0, 0x11136, 0x111D0, 0x112F0,
   0x11450, 0x114D0, 0x11650, 0x116C0, 0x11730, 0x118E0, 0x11950, 0x11C50,
   0x11D50, 0x11DA0, 0x16A60, 0x16AC0, 0x16B50, 0x1D7CE, 0x1D7D8, 0x1D7E2,
   0x1D7EC, 0x1D7F6, 0x1E140, 0x1E2F0, 0x1E950, 0x1FBF0]

/-- Decimal-digit value of a code point (`Py_UNICODE_TODECIMAL`): `some v`
when `c` lies in one of the Nd runs, at offset `v` from its start. -/
def toDec (c : Nat) : Option Nat :=
  match ndStarts.find? (fun s => decide (s ≤ c ∧ c < s + 10)) with
  | some s => some (c - s)
  | none => none

/-- One character of CPython's `_PyUnicode_TransformDecimalAndSpaceToASCII`,
run on the string before the ASCII integer parse: an ASCII character
(below 127) passes through unchanged — so ASCII controls such as 0x1C..0x1F
are NOT whitespace for `int()` even though `str.isspace` accepts them —
while a non-ASCII character becomes a space if it is Unicode whitespace,
the ASCII digit of the same value if it is a Unicode decimal digit, and an
error otherwise (CPython writes a placeholder byte that the integer parse
then rejects; either way `int()` raises `ValueError`). -/
def transChar (c : Nat) : Option Nat :=
  if c < 127 then some c
  else if uniSpace c then some 32
  else
    match toDec c with
    | some d => some (48 + d)
    | none => none

/-- CPython's decimal-and-space transform over a whole string. -/
def transform : List Nat → Option (List Nat)
  | [] => some []
  | c :: cs =>
    match transChar c, transform cs with
    | some a, some bs => some (a :: bs)
    | _, _ => none

/-- ASCII whitespace skipped around the number by the ASCII integer parse
(CPython's `Py_ISSPACE`: codes 9..13 and 32).  By the time this runs, the
transform stage has turned every Unicode whitespace character into 32. -/
def isSpace (c : Nat) : Bool :=
  decide (c = 32) || decide (c = 9) || decide (c = 10) || decide (c = 13) ||
  decide (c = 11) || decide (c = 12)

/-- Strip leading and trailing whitespace. -/
def stripWs (s : List Nat) : List Nat :=
  (((s.dropWhile isSpace).reverse).dropWhile isSpace).reverse

/-- Parse a run of ASCII digits, allowing single underscores (code 95)
between digits, per Python's integer-literal grammar; `none` on any other
character or on a misplaced underscore.  The flag records that the previous
character was an underscore, so the next one must be a digit. -/
def digitsValF : List Nat → Nat → Bool → Option Nat
  | [], acc, afterU => if afterU then none else some acc
  | c :: cs, acc, afterU =>
    if 48 ≤ c ∧ c ≤ 57 then digitsValF cs (10 * acc + (c - 48)) false
    else if c = 95 then
      if afterU then none else digitsValF cs acc true
    else none

/-- Parse a digit run (no pending underscore initially). -/
def digitsVal (ds : List Nat) (acc : Nat) : Option Nat := digitsValF ds acc false

/-- Split an optional single leading sign (43 `+` / 45 `-`). -/
def pyIntSign (t : List Nat) : Int × List Nat :=
  match t with
  | c :: r => if c = 43 then (1, r) else if c = 45 then (-1, r) else (1, t)
  | [] => (1, [])

/-- After sign splitting: the remaining text must start with a digit and be
a valid digit run. -/
def pyIntGo : Int × List Nat → Option Int
  | (_, []) => none
  | (sign, c :: rest) =>
    if 48 ≤ c ∧ c ≤ 57 then
      match digitsVal (c :: rest) 0 with
      | some v => some (sign * (v : Int))
      | none => none
    else none

/-- Python `int(s, base=10)`, as CPython computes it: first the
decimal-and-space transform (Unicode decimal digits to ASCII digits,
Unicode whitespace to spaces, other non-ASCII rejected), then the ASCII
parse — strip whitespace, optional sign, then a nonempty digit run
(underscores allowed between digits).  `none` models the raised
`ValueError`. -/
def pyInt (s : List Nat) : Option Int :=
  match transform s with
  | none => none
  | some t => pyIntGo (pyIntSign (stripWs t))

/-! ### `str.find` and the CAT:NUM:MSG body parse -/

/-- Scan `rest` (the part of the string from index `i` on) for code `c`,
returning the absolute index or -1 (Python `str.find`). -/
def findIdxFrom (c : Nat) : List Nat → Nat → Int
  | [], _ => -1
  | x :: rest, i => if x = c then (i : Int) else findIdxFrom c rest (i + 1)

/-- Python `s.find(chr(c), start)`. -/
def pyFind (s : List Nat) (c : Nat) (start : Nat) : Int :=
  findIdxFrom c (s.drop start) start

/-- `i1 = msg.find(":", 0)` of `_receive`. -/
def catBoundary (msg : List Nat) : Int := pyFind msg 58 0

/-- `i2 = msg.find(":", i1 + 1) if i1 >= 0 else -1` of `_receive`. -/
def serialBoundary (msg : List Nat) : Int :=
  if 0 ≤ catBoundary msg then pyFind msg 58 ((catBoundary msg).toNat + 1) else -1

/-- The slice `msg[i1+1:i2]` holding the serial-number text. -/
def numSlice (msg : List Nat) : List Nat :=
  (msg.drop ((catBoundary msg).toNat + 1)).take
    ((serialBoundary msg).toNat - ((catBoundary msg).toNat + 1))

/-- Parse a decoded body into `(cat, num, msg)` — lines 254..261 of
`channel.py`: raise `BadMessage("Expecting CAT:NUM:MSG")` when the second
colon is not at least two characters past the first (including when either
colon is absent, both boundaries then being -1), otherwise slice the three
pieces, `int(...)` raising `ValueError` on a non-numeric serial text. -/
def parseMsg (msg : List Nat) : Except PyErr Msg :=
  if serialBoundary msg < catBoundary msg + 2 then
    .error (.badMessage "Expecting CAT:NUM:MSG")
  else
    match pyInt (numSlice msg) with
    | none => .error .valueError
    | some n =>
      .ok ⟨msg.take (catBoundary msg).toNat, n, msg.drop ((serialBoundary msg).toNat + 1)⟩

/-! ### The header scanner and the parse loop of `Channel._receive` -/

/-- The `for i in range(self._off + 1, bufsiz)` header scan: `rest` is
`self._buf[i:]`, `i` the absolute index, `size` the accumulator.  Returns
`.ok none` when the buffer runs out before a separator (wait for more data),
`.ok (some (newOff, size))` on `':'` (with `newOff = i + 1`), and the
`BadMessage` errors of lines 227 and 232 otherwise. -/
def scanSize (off : Nat) : List Nat → Nat → Nat → Except PyErr (Option (Nat × Nat))
  | [], _, _ => .ok none
  | byte :: rest, i, size =>
    if 48 ≤ byte ∧ byte ≤ 57 then scanSize off rest (i + 1) (10 * size + (byte - 48))
    else if byte = 58 then
      if i ≤ off + 1 then .error (.badMessage "No size specified")
      else .ok (some (i + 1, size))
    else .error (.badMessage "Expecting digits or separator")

/-- Result of the header-parsing part of one loop iteration. -/
inductive HeaderRes where
  | err (e : PyErr)
  | brk
  | stage (off1 : Nat) (siz1 : Nat)
deriving DecidableEq, Repr

/-- Lines 210..235 of `channel.py`: when `_siz < 0` try to parse a header at
`_off` (checking the `'@'` marker even on a truncated buffer), breaking out
of the loop (`.brk`) when no complete header is available; when `_siz ≥ 0`
fall through to the body stage with the current offset and size. -/
def headerStage (buf : List Nat) (off : Nat) (siz : Int) : HeaderRes :=
  if siz < 0 then
    if off < buf.length then
      if buf.getD off 0 = 64 then
        match scanSize off (buf.drop (off + 1)) (off + 1) 0 with
        | .error e => .err e
        | .ok none => .brk
        | .ok (some (n, size)) => .stage n size
      else .err (.badMessage "Missing begin message marker")
    else .brk
  else .stage off siz.toNat

/-- One iteration of the parse loop (lines 209..264): header stage, body
completeness check, body extraction and decode, CAT:NUM:MSG parse, job push.
`.inl` ends the loop with the final loop state and optional raised error;
`.inr (off2, consumed2, jobs2)` continues a next iteration (after a pushed
job, `_siz` reset to -1). -/
def loopStep (buf : List Nat) (off : Nat) (siz : Int) (consumed : Nat)
    (jobs : List Msg) : (LoopSt × Option PyErr) ⊕ (Nat × Nat × List Msg) :=
  match headerStage buf off siz with
  | .err e => .inl (⟨off, siz, consumed, jobs⟩, some e)
  | .brk => .inl (⟨off, siz, consumed, jobs⟩, none)
  | .stage off1 siz1 =>
    if buf.length < off1 + siz1 then .inl (⟨off1, (siz1 : Int), consumed, jobs⟩, none)
    else
      match utf8Decode ((buf.drop off1).take siz1) with
      | none => .inl (⟨off1, (siz1 : Int), consumed, jobs⟩, some .unicodeDecodeError)
      | some msg0 =>
        match parseMsg msg0 with
        | .error e => .inl (⟨off1 + siz1, -1, off1 + siz1, jobs⟩, some e)
        | .ok m => .inr (off1 + siz1, off1 + siz1, jobs ++ [m])

/-- The parse loop with explicit fuel; `none` only on fuel exhaustion, which
`parseLoopF_isSome` rules out for the fuel used by `parseLoop`. -/
def parseLoopF : Nat → List Nat → Nat → Int → Nat → List Msg →
    Option (LoopSt × Option PyErr)
  | 0, _, _, _, _, _ => none
  | fuel + 1, buf, off, siz, consumed, jobs =>
    match loopStep buf off siz consumed jobs with
    | .inl r => some r
    | .inr (off2, consumed2, jobs2) => parseLoopF fuel buf off2 (-1) consumed2 jobs2

/-- Termination measure of the loop: every `.inr` continuation strictly
decreases it (`loopStep_measure`). -/
def loopMeasure (bufLen off : Nat) (siz : Int) : Nat :=
  2 * (bufLen - off) + (if 0 ≤ siz then 1 else 0)

/-- The `while True` parse loop of `_receive`, lines 209..264: returns the
final values of `(_off, _siz, consumed, _jobs)` together with the raised
exception, if any. -/
def parseLoop (buf : List Nat) (off : Nat) (siz : Int) (consumed : Nat)
    (jobs : List Msg) : LoopSt × Option PyErr :=
  (parseLoopF (2 * buf.length + 2) buf off siz consumed jobs).getD
    (⟨off, siz, consumed, jobs⟩, none)

/-- Post-processing of one `_receive` call given the parse loop's result on
the grown buffer `buf`: on success compact the buffer when bytes were
consumed (lines 268..270); on an exception the `except` block's
`self.disconnect()` call raises `AttributeError` (the class defines no
`disconnect` method), which propagates with the original exception as its
context, the transport stays open, and `self` keeps every mutation the loop
made before the raise (no compaction). -/
def receiveGo (ch : Chan) (buf : List Nat) : LoopSt × Option PyErr → Chan × Option PyErr
  | (st, some e) =>
    ({ ch with buf := buf, off := st.off, siz := st.siz, jobs := st.jobs },
     some (.attributeError "disconnect" e))
  | (st, none) =>
    if 0 < st.consumed then
      ({ ch with buf := buf.drop st.consumed, off := st.off - st.consumed,
                 siz := st.siz, jobs := st.jobs }, none)
    else
      ({ ch with buf := buf, off := st.off, siz := st.siz, jobs := st.jobs }, none)

/-- `Channel._receive` (lines 188..275) with `incoming` the bytes the drain
loop collects from the transport: append them to `_buf` (lines 192..200 on
a transport that hands over all currently available bytes), run the parse
loop, then post-process. -/
def Chan.receive (ch : Chan) (incoming : List Nat) : Chan × Option PyErr :=
  receiveGo ch (ch.buf ++ incoming)
    (parseLoop (ch.buf ++ incoming) ch.off ch.siz 0 ch.jobs)

/-- Feed a sequence of byte chunks through successive receive triggers,
stopping at the first propagated error. -/
def recvAll (ch : Chan) : List (List Nat) → Chan × Option PyErr
  | [] => (ch, none)
  | c :: cs =>
    match ch.receive c with
    | (ch', none) => recvAll ch' cs
    | (ch', some e) => (ch', some e)

/-! ### The send side -/

/-- The body bytes `(cat + ":" + str(num) + ":" + msg).encode("utf-8")`. -/
def encodeBody (cat : List Nat) (num : Int) (msg : List Nat) : List Nat :=
  utf8Encode (cat ++ 58 :: (intToStr num ++ 58 :: msg))

/-- The header bytes `("@" + str(n) + ":").encode("ascii")`. -/
def encodeHeader (n : Nat) : List Nat := 64 :: (natToStr n ++ [58])

/-- All bytes `send_format` writes for a well-typed call: the header write
followed by the body write. -/
def encodeFrame (cat : List Nat) (num : Int) (msg : List Nat) : List Nat :=
  encodeHeader (encodeBody cat num msg).length ++ encodeBody cat num msg

/-- Python values for modelling `send_format`'s `isinstance` checks.
(`bool` is omitted: Python counts `True` as an `int`, a corner the claims do
not touch; `other` stands for any non-str non-int argument.) -/
inductive PyVal where
  | str (s : List Nat)
  | int (i : Int)
  | other
deriving DecidableEq, Repr

/-- `send_format` (lines 165..185) on dynamically typed arguments: the three
`isinstance` checks run in order before either write, so a `TypeError`
leaves the write list empty; a well-typed call performs the header write and
the body write (and a flush). -/
def send_format (cat num msg : PyVal) : List (List Nat) × Option PyErr :=
  match cat with
  | .str c =>
    match num with
    | .int n =>
      match msg with
      | .str m =>
        ([encodeHeader (encodeBody c n m).length, encodeBody c n m], none)
      | _ => ([], some (.typeError "message must be a string"))
    | _ => ([], some (.typeError "serial number must be an integer"))
  | _ => ([], some (.typeError "category must be a string"))

/-- `send_serial` (lines 149..163): pre-increment `_cnt`, send with the new
value, return it.  Result: updated channel, bytes written, returned serial. -/
def Chan.send_serial (ch : Chan) (cat msg : List Nat) : Chan × List Nat × Nat :=
  let cnt := ch.cnt + 1
  ({ ch with cnt := cnt }, encodeFrame cat (cnt : Int) msg, cnt)

/-- `send_command` (line 108): `send_serial("CMD", cmd)`. -/
def Chan.send_command (ch : Chan) (cmd : List Nat) : Chan × List Nat × Nat :=
  ch.send_serial [67, 77, 68] cmd

/-- `send_event` (line 121): `send_serial("EVT", evt)`. -/
def Chan.send_event (ch : Chan) (evt : List Nat) : Chan × List Nat × Nat :=
  ch.send_serial [69, 86, 84] evt

/-- `send_result` (line 134): `send_format("OK", num, val)` with the
caller-supplied serial; the channel state is untouched. -/
def Chan.send_result (ch : Chan) (num : Int) (val : List Nat) : Chan × List Nat :=
  (ch, encodeFrame [79, 75] num val)

/-- `send_error` (line 147): `send_format("ERR", num, msg)` with the
caller-supplied serial; the channel state is untouched. -/
def Chan.send_error (ch : Chan) (num : Int) (msg : List Nat) : Chan × List Nat :=
  (ch, encodeFrame [69, 82, 82] num msg)

/-- `push_job` (lines 277..279): FIFO append. -/
def Chan.push_job (ch : Chan) (job : Msg) : Chan :=
  { ch with jobs := ch.jobs ++ [job] }

/-- `pop_job` (lines 281..285): `None` when empty, else pop the oldest. -/
def Chan.pop_job (ch : Chan) : Chan × Option Msg :=
  match ch.jobs with
  | [] => (ch, none)
  | j :: js => ({ ch with jobs := js }, some j)

/-- `more_jobs` (lines 287..288). -/
def Chan.more_jobs (ch : Chan) : Bool := decide (1 ≤ ch.jobs.length)

/-! ### Channel operation sequences (for the serial-allocation claim) -/

/-- One public operation on a channel. -/
inductive ChanOp where
  | command (s : List Nat)
  | event (s : List Nat)
  | serial (cat msg : List Nat)
  | result (n : Int) (s : List Nat)
  | failure (n : Int) (s : List Nat)
  | trigger (c : List Nat)
deriving Repr

/-- Run one operation; the `Option Nat` is the serial returned by an
auto-numbered send. -/
def runOp (ch : Chan) : ChanOp → Chan × Option Nat
  | .command s => ((ch.send_command s).1, some (ch.send_command s).2.2)
  | .event s => ((ch.send_event s).1, some (ch.send_event s).2.2)
  | .serial cat msg => ((ch.send_serial cat msg).1, some (ch.send_serial cat msg).2.2)
  | .result n s => ((ch.send_result n s).1, none)
  | .failure n s => ((ch.send_error n s).1, none)
  | .trigger c => ((ch.receive c).1, none)

/-- Run a sequence of operations, collecting the serials returned by
auto-numbered sends, in order. -/
def runOps (ch : Chan) : List ChanOp → Chan × List Nat
  | [] => (ch, [])
  | op :: ops =>
    let r := runOp ch op
    let rs := runOps r.1 ops
    (rs.1, match r.2 with | some n => n :: rs.2 | none => rs.2)

/-! ### Well-formed wire frames -/

/-- All bytes are ASCII digits. -/
def AllDigits (ds : List Nat) : Prop := ∀ d ∈ ds, 48 ≤ d ∧ d ≤ 57

instance (ds : List Nat) : Decidable (AllDigits ds) := by
  unfold AllDigits; infer_instance

/-- `f` is a well-formed wire frame decoding to message `m`: marker byte,
nonempty digit run giving the body length, separator, body of exactly that
length that UTF-8-decodes and parses as `CAT:NUM:MSG`. -/
def GoodFrame (f : List Nat) (m : Msg) : Prop :=
  ∃ ds body mchars,
    f = 64 :: (ds ++ 58 :: body) ∧ ds ≠ [] ∧ AllDigits ds ∧
    body.length = digitsAcc 0 ds ∧
    utf8Decode body = some mchars ∧ parseMsg mchars = .ok m

/-- Every listed (frame, message) pair is well-formed. -/
def GoodList (fs : List (List Nat × Msg)) : Prop := ∀ p ∈ fs, GoodFrame p.1 p.2

/-- Concatenated bytes of a frame list. -/
def bytesOf (fs : List (List Nat × Msg)) : List Nat := (fs.map Prod.fst).flatten

/-- Messages of a frame list, in order. -/
def msgsOf (fs : List (List Nat × Msg)) : List Msg := fs.map Prod.snd

/-- The canonical post-receive decoder state for a residue `R` of
unconsumed bytes (a proper prefix of a next frame): either no complete
header is buffered (`_off` back at the frame start, `_siz = -1`), or a
complete header has been parsed and the body is still short. -/
def ResidueSt (R : List Nat) (off : Nat) (siz : Int) : Prop :=
  ((R = [] ∨ ∃ ds, R = 64 :: ds ∧ AllDigits ds) ∧ off = 0 ∧ siz = -1) ∨
  (∃ ds pb, R = 64 :: (ds ++ 58 :: pb) ∧ ds ≠ [] ∧ AllDigits ds ∧
    pb.length < digitsAcc 0 ds ∧ off = ds.length + 2 ∧ siz = (digitsAcc 0 ds : Int))

/-- `v` is a Python `str`. -/
def isStr : PyVal → Bool
  | .str _ => true
  | _ => false

/-- `v` is a Python `int`. -/
def isInt : PyVal → Bool
  | .int _ => true
  | _ => false

/-- The optional error is a `TypeError`. -/
def isTypeErr : Option PyErr → Bool
  | some (.typeError _) => true
  | _ => false

/-! ## List helpers -/

theorem getD_at_length (C : List Nat) (x : Nat) (t : List Nat) (d : Nat) :
    (C ++ x :: t).getD C.length d = x := by
  rw [List.getD_append_right _ _ _ _ (le_refl _)]
  simp

/-! ## Decimal digits and integer printing/parsing -/

theorem natDigitsF_spec : ∀ fuel n, n ≤ fuel →
    listVal (natDigitsF fuel n) = n ∧ (∀ d ∈ natDigitsF fuel n, d < 10) ∧
      (n ≠ 0 → natDigitsF fuel n ≠ []) := by
  intro fuel
  induction fuel with
  | zero =>
    intro n hn
    have h0 : n = 0 := by omega
    subst h0
    simp [natDigitsF, listVal]
  | succ fuel ih =>
    intro n hn
    by_cases h0 : n = 0
    · subst h0; simp [natDigitsF, listVal]
    · have hdiv : n / 10 ≤ fuel := by omega
      obtain ⟨h1, h2, _⟩ := ih (n / 10) hdiv
      refine ⟨?_, ?_, ?_⟩
      · simp only [natDigitsF, h0, if_false, listVal, h1]
        omega
      · intro d hd
        simp only [natDigitsF, h0, if_false, List.mem_cons] at hd
        rcases hd with hd | hd
        · omega
        · exact h2 d hd
      · intro _
        simp [natDigitsF, h0]

theorem listVal_natDigits (n : Nat) : listVal (natDigits n) = n :=
  (natDigitsF_spec n n le_rfl).1

theorem natDigits_lt (n : Nat) : ∀ d ∈ natDigits n, d < 10 :=
  (natDigitsF_spec n n le_rfl).2.1

theorem natDigits_ne_nil (n : Nat) (h : n ≠ 0) : natDigits n ≠ [] :=
  (natDigitsF_spec n n le_rfl).2.2 h

theorem digitsAcc_append (a : Nat) (xs ys : List Nat) :
    digitsAcc a (xs ++ ys) = digitsAcc (digitsAcc a xs) ys :=
  List.foldl_append _ _ _ _

theorem digitsAcc_horner (L : List Nat) (a : Nat) :
    digitsAcc a ((L.reverse).map (· + 48)) = a * 10 ^ L.length + listVal L := by
  induction L generalizing a with
  | nil => simp [digitsAcc, listVal]
  | cons d L ih =>
    rw [List.reverse_cons, List.map_append, digitsAcc_append, ih]
    simp only [List.map_cons, List.map_nil, digitsAcc, List.foldl_cons,
      List.foldl_nil, listVal, List.length_cons]
    have h48 : d + 48 - 48 = d := by omega
    rw [h48, pow_succ]
    ring

theorem digitsAcc_natToStr (n : Nat) : digitsAcc 0 (natToStr n) = n := by
  by_cases h : n = 0
  · subst h; simp [natToStr, digitsAcc]
  · rw [natToStr, if_neg h, digitsAcc_horner]
    simp [listVal_natDigits]

theorem natToStr_digits (n : Nat) : AllDigits (natToStr n) := by
  intro d hd
  by_cases h : n = 0
  · subst h
    have : d = 48 := by simpa [natToStr] using hd
    omega
  · rw [natToStr, if_neg h] at hd
    simp only [List.mem_map, List.mem_reverse] at hd
    obtain ⟨x, hx, rfl⟩ := hd
    have := natDigits_lt n x hx
    omega

theorem natToStr_ne_nil (n : Nat) : natToStr n ≠ [] := by
  by_cases h : n = 0
  · subst h; simp [natToStr]
  · rw [natToStr, if_neg h]
    intro hc
    have := congrArg List.length hc
    simp only [List.length_map, List.length_reverse, List.length_nil] at this
    exact natDigits_ne_nil n h (List.length_eq_zero.mp this)

theorem intToStr_mem (i : Int) : ∀ c ∈ intToStr i, c = 45 ∨ (48 ≤ c ∧ c ≤ 57) := by
  intro c hc
  rw [intToStr] at hc
  split at hc
  · rcases List.mem_cons.mp hc with rfl | hc
    · exact Or.inl rfl
    · exact Or.inr (natToStr_digits _ c hc)
  · exact Or.inr (natToStr_digits _ c hc)

theorem intToStr_ne_nil (i : Int) : intToStr i ≠ [] := by
  rw [intToStr]
  split
  · simp
  · exact natToStr_ne_nil _

theorem colon_not_mem_intToStr (i : Int) : 58 ∉ intToStr i := by
  intro h
  rcases intToStr_mem i 58 h with h | h <;> omega

theorem validText_intToStr (i : Int) : ValidText (intToStr i) := by
  intro c hc
  rcases intToStr_mem i c hc with h | h <;>
    exact Or.inl (by omega)

theorem noSpace_intToStr (i : Int) : ∀ c ∈ intToStr i, isSpace c = false := by
  intro c hc
  rcases intToStr_mem i c hc with h | h <;>
    · simp only [isSpace, Bool.or_eq_false_iff, decide_eq_false_iff_not]
      omega

theorem digitsValF_of_digits (ds : List Nat) (h : AllDigits ds) (a : Nat) :
    digitsValF ds a false = some (digitsAcc a ds) := by
  induction ds generalizing a with
  | nil => simp [digitsValF, digitsAcc]
  | cons c cs ih =>
    have hc := h c (List.mem_cons_self c cs)
    have hcs : AllDigits cs := fun d hd => h d (List.mem_cons_of_mem c hd)
    simp only [digitsValF]
    rw [if_pos hc, ih hcs]
    simp [digitsAcc]

theorem digitsVal_of_digits (ds : List Nat) (h : AllDigits ds) (a : Nat) :
    digitsVal ds a = some (digitsAcc a ds) :=
  digitsValF_of_digits ds h a

theorem dropWhile_eq_self_of (p : Nat → Bool) (s : List Nat)
    (h : ∀ c ∈ s, p c = false) : s.dropWhile p = s := by
  cases s with
  | nil => rfl
  | cons c cs =>
    rw [List.dropWhile_cons, h c (List.mem_cons_self c cs)]
    simp

theorem stripWs_eq_self (s : List Nat) (h : ∀ c ∈ s, isSpace c = false) :
    stripWs s = s := by
  unfold stripWs
  rw [dropWhile_eq_self_of _ _ h, dropWhile_eq_self_of, List.reverse_reverse]
  intro c hc
  exact h c (by simpa using hc)

theorem transChar_ascii (c : Nat) (h : c < 127) : transChar c = some c := by
  unfold transChar
  rw [if_pos h]

theorem transform_id (s : List Nat) (h : ∀ c ∈ s, transChar c = some c) :
    transform s = some s := by
  induction s with
  | nil => rfl
  | cons c cs ih =>
    have h1 : transChar c = some c := h c (List.mem_cons_self c cs)
    have h2 : transform cs = some cs :=
      ih fun x hx => h x (List.mem_cons_of_mem c hx)
    simp only [transform, h1, h2]

theorem transChar_intToStr (i : Int) : ∀ c ∈ intToStr i, transChar c = some c := by
  intro c hc
  rcases intToStr_mem i c hc with rfl | ⟨h1, h2⟩
  · exact transChar_ascii 45 (by omega)
  · exact transChar_ascii c (by omega)

theorem pyInt_intToStr (i : Int) : pyInt (intToStr i) = some i := by
  unfold pyInt
  rw [transform_id _ (transChar_intToStr i)]
  show pyIntGo (pyIntSign (stripWs (intToStr i))) = some i
  rw [stripWs_eq_self _ (noSpace_intToStr i)]
  by_cases hi : i < 0
  · have hrepr : intToStr i = 45 :: natToStr (-i).toNat := by
      rw [intToStr, if_pos hi]
    rw [hrepr]
    have hsign : pyIntSign (45 :: natToStr (-i).toNat) = (-1, natToStr (-i).toNat) := by
      simp [pyIntSign]
    rw [hsign]
    obtain ⟨d, t', ht⟩ := List.exists_cons_of_ne_nil (natToStr_ne_nil (-i).toNat)
    have hd : 48 ≤ d ∧ d ≤ 57 := natToStr_digits (-i).toNat d (by rw [ht]; simp)
    have hdv := digitsVal_of_digits (natToStr (-i).toNat) (natToStr_digits _) 0
    rw [ht] at hdv
    rw [ht]
    simp only [pyIntGo]
    rw [if_pos hd, hdv, ← ht, digitsAcc_natToStr]
    exact congrArg some (by omega)
  · have hrepr : intToStr i = natToStr i.toNat := by
      rw [intToStr, if_neg hi]
    rw [hrepr]
    obtain ⟨d, t', ht⟩ := List.exists_cons_of_ne_nil (natToStr_ne_nil i.toNat)
    have hd : 48 ≤ d ∧ d ≤ 57 := natToStr_digits i.toNat d (by rw [ht]; simp)
    have hsign : pyIntSign (natToStr i.toNat) = (1, natToStr i.toNat) := by
      rw [ht]
      simp only [pyIntSign]
      rw [if_neg (by omega), if_neg (by omega)]
    rw [hsign]
    have hdv := digitsVal_of_digits (natToStr i.toNat) (natToStr_digits _) 0
    rw [ht] at hdv
    rw [ht]
    simp only [pyIntGo]
    rw [if_pos hd, hdv, ← ht, digitsAcc_natToStr]
    exact congrArg some (by omega)

/-! ## UTF-8 round-trip -/

theorem utf8Encode_append (s t : List Nat) :
    utf8Encode (s ++ t) = utf8Encode s ++ utf8Encode t := by
  induction s with
  | nil => rfl
  | cons c cs ih => simp [utf8Encode, ih]

theorem contB_true (b : Nat) (h1 : 0x80 ≤ b) (h2 : b < 0xC0) : contB b = true := by
  simp only [contB, Bool.and_eq_true, decide_eq_true_eq]
  omega

theorem utf8Go_cons (b : Nat) (rest : List Nat) (needed acc minv : Nat) :
    utf8Go (b :: rest) needed acc minv =
      if needed = 0 then
        if b < 0x80 then (utf8Go rest 0 0 0).map (b :: ·)
        else if b < 0xC0 then none
        else if b < 0xE0 then utf8Go rest 1 (b - 0xC0) 0x80
        else if b < 0xF0 then utf8Go rest 2 (b - 0xE0) 0x800
        else if b < 0xF8 then utf8Go rest 3 (b - 0xF0) 0x10000
        else none
      else
        if contB b then
          if needed = 1 then
            if minv ≤ acc * 0x40 + (b - 0x80) ∧ acc * 0x40 + (b - 0x80) < 0x110000 ∧
                ¬(0xD800 ≤ acc * 0x40 + (b - 0x80) ∧ acc * 0x40 + (b - 0x80) < 0xE000) then
              (utf8Go rest 0 0 0).map ((acc * 0x40 + (b - 0x80)) :: ·)
            else none
          else utf8Go rest (needed - 1) (acc * 0x40 + (b - 0x80)) minv
        else none := rfl

theorem utf8Decode_encodeChar (c : Nat) (h : ValidScalar c) (rest : List Nat) :
    utf8Decode (utf8EncodeChar c ++ rest) = (utf8Decode rest).map (c :: ·) := by
  have hsur : c < 0xD800 ∨ 0xE000 ≤ c := by
    rcases h with h | h
    · exact Or.inl h
    · exact Or.inr h.1
  have hmax : c < 0x110000 := by
    rcases h with h | h
    · omega
    · exact h.2
  unfold utf8Decode
  rcases Nat.lt_or_ge c 0x80 with h1 | h1
  · have hb : utf8EncodeChar c ++ rest = c :: rest := by
      rw [utf8EncodeChar, if_pos h1]
      rfl
    rw [hb, utf8Go_cons, if_pos rfl, if_pos h1]
  · rcases Nat.lt_or_ge c 0x800 with h2 | h2
    · have hb : utf8EncodeChar c ++ rest =
          (0xC0 + c / 0x40) :: (0x80 + c % 0x40) :: rest := by
        rw [utf8EncodeChar, if_neg (by omega), if_pos h2]
        rfl
      rw [hb, utf8Go_cons, if_pos rfl, if_neg (by omega), if_neg (by omega),
        if_pos (by omega : 0xC0 + c / 0x40 < 0xE0)]
      rw [utf8Go_cons, if_neg (by omega : ¬(1 : Nat) = 0),
        if_pos (contB_true _ (by omega) (by omega)), if_pos (rfl : (1 : Nat) = 1)]
      have hval : (0xC0 + c / 0x40 - 0xC0) * 0x40 + (0x80 + c % 0x40 - 0x80) = c := by
        omega
      rw [hval, if_pos (by refine ⟨by omega, by omega, by omega⟩)]
    · rcases Nat.lt_or_ge c 0x10000 with h3 | h3
      · have hb : utf8EncodeChar c ++ rest =
            (0xE0 + c / 0x1000) :: (0x80 + c / 0x40 % 0x40) ::
              (0x80 + c % 0x40) :: rest := by
          rw [utf8EncodeChar, if_neg (by omega), if_neg (by omega), if_pos h3]
          rfl
        rw [hb, utf8Go_cons, if_pos rfl, if_neg (by omega), if_neg (by omega),
          if_neg (by omega), if_pos (by omega : 0xE0 + c / 0x1000 < 0xF0)]
        rw [utf8Go_cons, if_neg (by omega : ¬(2 : Nat) = 0),
          if_pos (contB_true _ (by omega) (by omega)),
          if_neg (by omega : ¬(2 : Nat) = 1)]
        rw [utf8Go_cons, if_neg (by omega : ¬(2 - 1 : Nat) = 0),
          if_pos (contB_true _ (by omega) (by omega)),
          if_pos (by omega : (2 - 1 : Nat) = 1)]
        have hdd : c / 0x40 / 0x40 = c / 0x1000 := by
          rw [Nat.div_div_eq_div_mul]
        have e1 := Nat.div_add_mod (c / 0x40) 0x40
        have e2 := Nat.div_add_mod c 0x40
        have hval : ((0xE0 + c / 0x1000 - 0xE0) * 0x40 +
            (0x80 + c / 0x40 % 0x40 - 0x80)) * 0x40 + (0x80 + c % 0x40 - 0x80) = c := by
          omega
        rw [hval, if_pos (by refine ⟨by omega, by omega, by omega⟩)]
      · have hb : utf8EncodeChar c ++ rest =
            (0xF0 + c / 0x40000) :: (0x80 + c / 0x1000 % 0x40) ::
              (0x80 + c / 0x40 % 0x40) :: (0x80 + c % 0x40) :: rest := by
          rw [utf8EncodeChar, if_neg (by omega), if_neg (by omega), if_neg (by omega)]
          rfl
        rw [hb, utf8Go_cons, if_pos rfl, if_neg (by omega), if_neg (by omega),
          if_neg (by omega), if_neg (by omega : ¬0xF0 + c / 0x40000 < 0xF0),
          if_pos (by omega : 0xF0 + c / 0x40000 < 0xF8)]
        rw [utf8Go_cons, if_neg (by omega : ¬(3 : Nat) = 0),
          if_pos (contB_true _ (by omega) (by omega)),
          if_neg (by omega : ¬(3 : Nat) = 1)]
        rw [utf8Go_cons, if_neg (by omega : ¬(3 - 1 : Nat) = 0),
          if_pos (contB_true _ (by omega) (by omega)),
          if_neg (by omega : ¬(3 - 1 : Nat) = 1)]
        rw [utf8Go_cons, if_neg (by omega : ¬(3 - 1 - 1 : Nat) = 0),
          if_pos (contB_true _ (by omega) (by omega)),
          if_pos (by omega : (3 - 1 - 1 : Nat) = 1)]
        have hdd1 : c / 0x40 / 0x40 = c / 0x1000 := by
          rw [Nat.div_div_eq_div_mul]
        have hdd2 : c / 0x1000 / 0x40 = c / 0x40000 := by
          rw [Nat.div_div_eq_div_mul]
        have e1 := Nat.div_add_mod (c / 0x1000) 0x40
        have e2 := Nat.div_add_mod (c / 0x40) 0x40
        have e3 := Nat.div_add_mod c 0x40
        have hval : (((0xF0 + c / 0x40000 - 0xF0) * 0x40 +
            (0x80 + c / 0x1000 % 0x40 - 0x80)) * 0x40 +
            (0x80 + c / 0x40 % 0x40 - 0x80)) * 0x40 + (0x80 + c % 0x40 - 0x80) = c := by
          omega
        rw [hval, if_pos (by refine ⟨by omega, by omega, by omega⟩)]

theorem utf8Decode_encode (s : List Nat) (h : ValidText s) :
    utf8Decode (utf8Encode s) = some s := by
  induction s with
  | nil => rfl
  | cons c cs ih =>
    have hc : ValidScalar c := h c (List.mem_cons_self c cs)
    have hcs : ValidText cs := fun d hd => h d (List.mem_cons_of_mem c hd)
    show utf8Decode (utf8EncodeChar c ++ utf8Encode cs) = some (c :: cs)
    rw [utf8Decode_encodeChar c hc, ih hcs]
    rfl

/-! ## `str.find` and the CAT:NUM:MSG body parse -/

theorem findIdxFrom_cons (c x : Nat) (rest : List Nat) (i : Nat) :
    findIdxFrom c (x :: rest) i =
      if x = c then (i : Int) else findIdxFrom c rest (i + 1) := rfl

theorem findIdxFrom_append_notMem (c : Nat) (pre : List Nat) (hpre : c ∉ pre)
    (rest : List Nat) : ∀ i : Nat,
    findIdxFrom c (pre ++ c :: rest) i = ((i + pre.length : Nat) : Int) := by
  induction pre with
  | nil =>
    intro i
    rw [List.nil_append, findIdxFrom_cons, if_pos rfl]
    simp
  | cons x xs ih =>
    intro i
    have hx : x ≠ c := fun hc => hpre (by simp [hc])
    have hxs : c ∉ xs := fun hc => hpre (by simp [hc])
    rw [List.cons_append, findIdxFrom_cons, if_neg hx, ih hxs (i + 1)]
    congr 1
    simp only [List.length_cons]
    omega

theorem pyFind_prefix_notMem (pre : List Nat) (hpre : 58 ∉ pre) (rest : List Nat) :
    pyFind (pre ++ 58 :: rest) 58 0 = (pre.length : Int) := by
  unfold pyFind
  rw [List.drop_zero, findIdxFrom_append_notMem 58 pre hpre rest 0]
  simp

theorem drop_after_colon (pre rest : List Nat) :
    (pre ++ 58 :: rest).drop (pre.length + 1) = rest := by
  have h1 : pre ++ 58 :: rest = (pre ++ [58]) ++ rest := by simp
  have h2 : pre.length + 1 = (pre ++ [58]).length := by simp
  rw [h1, h2, List.drop_left]

theorem parseMsg_encoded (cat : List Nat) (num : Int) (msg : List Nat)
    (hcat : 58 ∉ cat) :
    parseMsg (cat ++ 58 :: (intToStr num ++ 58 :: msg)) = .ok ⟨cat, num, msg⟩ := by
  have hns1 : 1 ≤ (intToStr num).length :=
    List.length_pos.mpr (intToStr_ne_nil num)
  have hi1 : catBoundary (cat ++ 58 :: (intToStr num ++ 58 :: msg)) =
      (cat.length : Int) :=
    pyFind_prefix_notMem cat hcat _
  have hi2 : serialBoundary (cat ++ 58 :: (intToStr num ++ 58 :: msg)) =
      ((cat.length + 1 + (intToStr num).length : Nat) : Int) := by
    unfold serialBoundary
    rw [hi1, if_pos (by omega)]
    unfold pyFind
    have ht : ((cat.length : Int)).toNat + 1 = cat.length + 1 := by omega
    rw [ht, drop_after_colon, findIdxFrom_append_notMem 58 (intToStr num)
      (colon_not_mem_intToStr num) msg (cat.length + 1)]
  unfold parseMsg
  rw [hi1, hi2, if_neg (by push_cast; omega)]
  have hslice : numSlice (cat ++ 58 :: (intToStr num ++ 58 :: msg)) = intToStr num := by
    unfold numSlice
    rw [hi1, hi2]
    have ht1 : ((cat.length : Int)).toNat + 1 = cat.length + 1 := by omega
    have ht2 : ((cat.length + 1 + (intToStr num).length : Nat) : Int).toNat -
        (((cat.length : Int)).toNat + 1) = (intToStr num).length := by omega
    rw [ht2, ht1, drop_after_colon]
    have h3 : intToStr num ++ 58 :: msg = intToStr num ++ (58 :: msg) := rfl
    rw [h3, List.take_left]
  rw [hslice, pyInt_intToStr]
  have hcat' : (cat ++ 58 :: (intToStr num ++ 58 :: msg)).take
      ((cat.length : Int)).toNat = cat := by
    have ht : ((cat.length : Int)).toNat = cat.length := by omega
    rw [ht, List.take_left]
  have hmsg' : (cat ++ 58 :: (intToStr num ++ 58 :: msg)).drop
      (((cat.length + 1 + (intToStr num).length : Nat) : Int).toNat + 1) = msg := by
    have ht : ((cat.length + 1 + (intToStr num).length : Nat) : Int).toNat + 1 =
        (cat ++ [58] ++ intToStr num ++ [58]).length := by simp; omega
    have hsplit : cat ++ 58 :: (intToStr num ++ 58 :: msg) =
        (cat ++ [58] ++ intToStr num ++ [58]) ++ msg := by simp
    rw [ht, hsplit, List.drop_left]
  rw [hcat', hmsg']

theorem parseMsg_badMessage_iff (msg : List Nat) :
    parseMsg msg = .error (.badMessage "Expecting CAT:NUM:MSG") ↔
      serialBoundary msg < catBoundary msg + 2 := by
  unfold parseMsg
  split_ifs with h
  · simp [h]
  · simp only [h, iff_false]
    cases hp : pyInt (numSlice msg) with
    | none => simp
    | some n => simp

theorem parseMsg_ok_of (msg : List Nat)
    (h : ¬ serialBoundary msg < catBoundary msg + 2)
    (n : Int) (hp : pyInt (numSlice msg) = some n) :
    parseMsg msg =
      .ok ⟨msg.take (catBoundary msg).toNat, n,
           msg.drop ((serialBoundary msg).toNat + 1)⟩ := by
  unfold parseMsg
  rw [if_neg h, hp]

theorem parseMsg_valueError_of (msg : List Nat)
    (h : ¬ serialBoundary msg < catBoundary msg + 2)
    (hp : pyInt (numSlice msg) = none) :
    parseMsg msg = .error .valueError := by
  unfold parseMsg
  rw [if_neg h, hp]

/-! ## Header scanner lemmas -/

theorem scanSize_cons (off byte : Nat) (rest : List Nat) (i size : Nat) :
    scanSize off (byte :: rest) i size =
      if 48 ≤ byte ∧ byte ≤ 57 then
        scanSize off rest (i + 1) (10 * size + (byte - 48))
      else if byte = 58 then
        if i ≤ off + 1 then .error (.badMessage "No size specified")
        else .ok (some (i + 1, size))
      else .error (.badMessage "Expecting digits or separator") := rfl

theorem scanSize_digits_aux (off : Nat) (rest : List Nat) : ∀ ds i size,
    AllDigits ds → off + 1 < i + ds.length →
    scanSize off (ds ++ 58 :: rest) i size =
      .ok (some (i + ds.length + 1, digitsAcc size ds)) := by
  intro ds
  induction ds with
  | nil =>
    intro i size _ hlen
    simp only [List.length_nil] at hlen
    rw [List.nil_append, scanSize_cons, if_neg (by omega), if_pos rfl,
      if_neg (by omega)]
    simp [digitsAcc]
  | cons d ds ih =>
    intro i size hds hlen
    have hd := hds d (List.mem_cons_self _ _)
    rw [List.cons_append, scanSize_cons, if_pos hd,
      ih (i + 1) _ (fun x hx => hds x (List.mem_cons_of_mem _ hx))
        (by simp only [List.length_cons] at hlen; omega)]
    have hidx : i + 1 + ds.length + 1 = i + (d :: ds).length + 1 := by
      simp only [List.length_cons]
      omega
    rw [hidx]
    rfl

theorem scanSize_digits_none (off : Nat) : ∀ ds i size, AllDigits ds →
    scanSize off ds i size = .ok none := by
  intro ds
  induction ds with
  | nil => intro i size _; rfl
  | cons d ds ih =>
    intro i size hds
    rw [scanSize_cons, if_pos (hds d (List.mem_cons_self _ _)),
      ih _ _ (fun x hx => hds x (List.mem_cons_of_mem _ hx))]

theorem scanSize_some_lt (off : Nat) : ∀ ds i size n s,
    scanSize off ds i size = .ok (some (n, s)) → off + 1 < n := by
  intro ds
  induction ds with
  | nil =>
    intro i size n s h
    simp [scanSize] at h
  | cons d ds ih =>
    intro i size n s h
    rw [scanSize_cons] at h
    by_cases hd : 48 ≤ d ∧ d ≤ 57
    · rw [if_pos hd] at h
      exact ih _ _ _ _ h
    · rw [if_neg hd] at h
      by_cases hc : d = 58
      · rw [if_pos hc] at h
        by_cases hle : i ≤ off + 1
        · rw [if_pos hle] at h
          simp at h
        · rw [if_neg hle] at h
          have h' : i + 1 = n ∧ size = s := by simpa using h
          omega
      · rw [if_neg hc] at h
        simp at h

/-! ## Header stage and parse-loop machinery -/

theorem headerStage_stage (buf : List Nat) (off : Nat) (siz : Int)
    (off1 siz1 : Nat) (h : headerStage buf off siz = .stage off1 siz1) :
    (0 ≤ siz ∧ off1 = off ∧ siz1 = siz.toNat) ∨
      (siz < 0 ∧ off < buf.length ∧ off + 1 < off1) := by
  unfold headerStage at h
  by_cases hs : siz < 0
  · rw [if_pos hs] at h
    by_cases ho : off < buf.length
    · rw [if_pos ho] at h
      by_cases hm : buf.getD off 0 = 64
      · rw [if_pos hm] at h
        cases hscan : scanSize off (buf.drop (off + 1)) (off + 1) 0 with
        | error e => rw [hscan] at h; simp at h
        | ok o =>
          cases o with
          | none => rw [hscan] at h; simp at h
          | some p =>
            obtain ⟨n, sz⟩ := p
            rw [hscan] at h
            simp only [HeaderRes.stage.injEq] at h
            refine Or.inr ⟨hs, ho, ?_⟩
            have := scanSize_some_lt off _ _ _ _ _ hscan
            omega
      · rw [if_neg hm] at h; simp at h
    · rw [if_neg ho] at h; simp at h
  · rw [if_neg hs] at h
    simp only [HeaderRes.stage.injEq] at h
    exact Or.inl ⟨by omega, h.1.symm, h.2.symm⟩

theorem loopStep_inl_jobs (buf : List Nat) (off : Nat) (siz : Int) (consumed : Nat)
    (jobs : List Msg) (r0 : LoopSt × Option PyErr)
    (h : loopStep buf off siz consumed jobs = .inl r0) : r0.1.jobs = jobs := by
  unfold loopStep at h
  split at h
  · simp only [Sum.inl.injEq] at h; rw [← h]
  · simp only [Sum.inl.injEq] at h; rw [← h]
  · split at h
    · simp only [Sum.inl.injEq] at h; rw [← h]
    · split at h
      · simp only [Sum.inl.injEq] at h; rw [← h]
      · split at h
        · simp only [Sum.inl.injEq] at h; rw [← h]
        · simp at h

theorem loopStep_inr_jobs (buf : List Nat) (off : Nat) (siz : Int) (consumed : Nat)
    (jobs : List Msg) (t : Nat × Nat × List Msg)
    (h : loopStep buf off siz consumed jobs = .inr t) : ∃ m, t.2.2 = jobs ++ [m] := by
  unfold loopStep at h
  split at h
  · simp at h
  · simp at h
  · split at h
    · simp at h
    · split at h
      · simp at h
      · split at h
        · simp at h
        · simp only [Sum.inr.injEq] at h
          exact ⟨_, by rw [← h]⟩

theorem loopStep_measure (buf : List Nat) (off : Nat) (siz : Int) (consumed : Nat)
    (jobs : List Msg) (t : Nat × Nat × List Msg)
    (h : loopStep buf off siz consumed jobs = .inr t) :
    loopMeasure buf.length t.1 (-1) < loopMeasure buf.length off siz := by
  unfold loopStep at h
  split at h
  · simp at h
  · simp at h
  · split at h
    · simp at h
    · split at h
      · simp at h
      · split at h
        · simp at h
        · rename_i x2 off1 siz1 hheq hlen x1 msg0 hdec x0 m hpm
          simp only [Sum.inr.injEq] at h
          have ht1 : t.1 = off1 + siz1 := by rw [← h]
          rcases headerStage_stage _ _ _ _ _ hheq with ⟨hpos, rfl, hsz⟩ |
            ⟨hneg, hlt, hlt2⟩
          · unfold loopMeasure
            rw [if_pos hpos, if_neg (by omega : ¬(0 : Int) ≤ -1)]
            omega
          · unfold loopMeasure
            rw [if_neg (by omega : ¬(0 : Int) ≤ -1), if_neg (by omega)]
            omega

theorem parseLoopF_mono : ∀ f1 buf off siz consumed jobs r,
    parseLoopF f1 buf off siz consumed jobs = some r →
    ∀ f2, f1 ≤ f2 → parseLoopF f2 buf off siz consumed jobs = some r := by
  intro f1
  induction f1 with
  | zero =>
    intro buf off siz consumed jobs r h
    simp [parseLoopF] at h
  | succ f ih =>
    intro buf off siz consumed jobs r h f2 hle
    obtain ⟨f2', rfl⟩ : ∃ f2', f2 = f2' + 1 := ⟨f2 - 1, by omega⟩
    simp only [parseLoopF] at h ⊢
    cases hs : loopStep buf off siz consumed jobs with
    | inl r0 => rw [hs] at h; exact h
    | inr t =>
      obtain ⟨o2, c2, j2⟩ := t
      rw [hs] at h
      exact ih _ _ _ _ _ _ h _ (by omega)

theorem parseLoopF_isSome : ∀ fuel buf off siz consumed jobs,
    loopMeasure buf.length off siz < fuel →
    (parseLoopF fuel buf off siz consumed jobs).isSome = true := by
  intro fuel
  induction fuel with
  | zero =>
    intro buf off siz consumed jobs h
    exact absurd h (by omega)
  | succ f ih =>
    intro buf off siz consumed jobs h
    simp only [parseLoopF]
    cases hs : loopStep buf off siz consumed jobs with
    | inl r => simp
    | inr t =>
      obtain ⟨o2, c2, j2⟩ := t
      have hm := loopStep_measure _ _ _ _ _ _ hs
      exact ih _ _ _ _ _ (by simp only [] at hm; omega)

theorem loopMeasure_lt (buf : List Nat) (off : Nat) (siz : Int) :
    loopMeasure buf.length off siz < 2 * buf.length + 2 := by
  unfold loopMeasure
  split_ifs <;> omega

theorem parseLoopF_eq_parseLoop (fuel : Nat) (buf : List Nat) (off : Nat)
    (siz : Int) (consumed : Nat) (jobs : List Msg)
    (h : loopMeasure buf.length off siz < fuel) :
    parseLoopF fuel buf off siz consumed jobs =
      some (parseLoop buf off siz consumed jobs) := by
  have h1 := parseLoopF_isSome fuel buf off siz consumed jobs h
  have h2 := parseLoopF_isSome (2 * buf.length + 2) buf off siz consumed jobs
    (loopMeasure_lt buf off siz)
  obtain ⟨r1, hr1⟩ := Option.isSome_iff_exists.mp h1
  obtain ⟨r2, hr2⟩ := Option.isSome_iff_exists.mp h2
  unfold parseLoop
  rw [hr1, hr2, Option.getD_some]
  rcases le_total fuel (2 * buf.length + 2) with hle | hle
  · have hmono := parseLoopF_mono fuel _ _ _ _ _ _ hr1 _ hle
    rw [hmono] at hr2
    exact congrArg some (Option.some.inj hr2)
  · have hmono := parseLoopF_mono _ _ _ _ _ _ _ hr2 _ hle
    rw [hmono] at hr1
    exact congrArg some (Option.some.inj hr1).symm

theorem parseLoop_unfold (buf : List Nat) (off : Nat) (siz : Int) (consumed : Nat)
    (jobs : List Msg) :
    parseLoop buf off siz consumed jobs =
      match loopStep buf off siz consumed jobs with
      | .inl r => r
      | .inr (off2, consumed2, jobs2) => parseLoop buf off2 (-1) consumed2 jobs2 := by
  have h0 := parseLoopF_eq_parseLoop (2 * buf.length + 2) buf off siz consumed jobs
    (loopMeasure_lt buf off siz)
  have hfl : (2 : Nat) * buf.length + 2 = 2 * buf.length + 1 + 1 := by omega
  rw [hfl] at h0
  cases hs : loopStep buf off siz consumed jobs with
  | inl r =>
    have hstep : parseLoopF (2 * buf.length + 1 + 1) buf off siz consumed jobs =
        some r := by
      simp only [parseLoopF]
      rw [hs]
    rw [hstep] at h0
    exact (Option.some.inj h0).symm
  | inr t =>
    obtain ⟨o2, c2, j2⟩ := t
    have hmeas : loopMeasure buf.length o2 (-1) < 2 * buf.length + 1 := by
      unfold loopMeasure
      rw [if_neg (by omega)]
      omega
    have hrec := parseLoopF_eq_parseLoop (2 * buf.length + 1) buf o2 (-1) c2 j2 hmeas
    have hstep : parseLoopF (2 * buf.length + 1 + 1) buf off siz consumed jobs =
        parseLoopF (2 * buf.length + 1) buf o2 (-1) c2 j2 := by
      simp only [parseLoopF]
      rw [hs]
    rw [hstep, hrec] at h0
    exact (Option.some.inj h0).symm

theorem parseLoopF_jobs_mono (buf : List Nat) : ∀ fuel off siz consumed jobs r,
    parseLoopF fuel buf off siz consumed jobs = some r →
    ∃ tail, r.1.jobs = jobs ++ tail := by
  intro fuel
  induction fuel with
  | zero =>
    intro off siz consumed jobs r h
    simp [parseLoopF] at h
  | succ f ih =>
    intro off siz consumed jobs r h
    simp only [parseLoopF] at h
    cases hs : loopStep buf off siz consumed jobs with
    | inl r0 =>
      rw [hs] at h
      have h' : some r0 = some r := h
      obtain rfl : r0 = r := Option.some.inj h'
      exact ⟨[], by rw [loopStep_inl_jobs _ _ _ _ _ _ hs, List.append_nil]⟩
    | inr t =>
      obtain ⟨o2, c2, j2⟩ := t
      rw [hs] at h
      obtain ⟨m, hm⟩ := loopStep_inr_jobs _ _ _ _ _ _ hs
      obtain ⟨tail, htail⟩ := ih _ _ _ _ _ h
      refine ⟨m :: tail, ?_⟩
      rw [htail]
      simp only at hm
      rw [hm]
      simp

theorem parseLoop_jobs_mono (buf : List Nat) (off : Nat) (siz : Int)
    (consumed : Nat) (jobs : List Msg) :
    ∃ tail, (parseLoop buf off siz consumed jobs).1.jobs = jobs ++ tail := by
  have h0 := parseLoopF_eq_parseLoop (2 * buf.length + 2) buf off siz consumed jobs
    (loopMeasure_lt buf off siz)
  exact parseLoopF_jobs_mono buf _ _ _ _ _ _ h0

/-! ## Consuming frames in the parse loop -/

theorem drop_cons_at_length (pre : List Nat) (x : Nat) (rest : List Nat) :
    (pre ++ x :: rest).drop (pre.length + 1) = rest := by
  have h1 : pre ++ x :: rest = (pre ++ [x]) ++ rest := by simp
  have h2 : pre.length + 1 = (pre ++ [x]).length := by simp
  rw [h1, h2, List.drop_left]

theorem digitRunEq : ∀ ds1 ds2 x1 x2 : List Nat, AllDigits ds1 → AllDigits ds2 →
    ds1 ++ 58 :: x1 = ds2 ++ 58 :: x2 → ds1 = ds2 ∧ x1 = x2 := by
  intro ds1
  induction ds1 with
  | nil =>
    intro ds2 x1 x2 _ hd2 h
    cases ds2 with
    | nil => simpa using h
    | cons d ds2 =>
      have hd := hd2 d (List.mem_cons_self _ _)
      simp only [List.nil_append, List.cons_append, List.cons.injEq] at h
      omega
  | cons d ds1 ih =>
    intro ds2 x1 x2 hd1 hd2 h
    cases ds2 with
    | nil =>
      have hd := hd1 d (List.mem_cons_self _ _)
      simp only [List.nil_append, List.cons_append, List.cons.injEq] at h
      omega
    | cons e ds2 =>
      simp only [List.cons_append, List.cons.injEq] at h
      obtain ⟨rfl, h⟩ := h
      obtain ⟨h1, h2⟩ := ih ds2 x1 x2 (fun y hy => hd1 y (List.mem_cons_of_mem _ hy))
        (fun y hy => hd2 y (List.mem_cons_of_mem _ hy)) h
      exact ⟨by rw [h1], h2⟩

theorem parseLoop_body_short (buf : List Nat) (off : Nat) (sz : Nat)
    (hshort : buf.length < off + sz) (c0 : Nat) (jobs : List Msg) :
    parseLoop buf off (sz : Int) c0 jobs = (⟨off, (sz : Int), c0, jobs⟩, none) := by
  rw [parseLoop_unfold]
  have hhs : headerStage buf off (sz : Int) = .stage off sz := by
    unfold headerStage
    rw [if_neg (by omega)]
    simp
  have hstep : loopStep buf off (sz : Int) c0 jobs =
      .inl (⟨off, (sz : Int), c0, jobs⟩, none) := by
    simp only [loopStep, hhs]
    rw [if_pos hshort]
  rw [hstep]

theorem parseLoop_body_step (C body T : List Nat) (consumed : Nat) (jobs : List Msg)
    (mc : List Nat) (m : Msg) (hdec : utf8Decode body = some mc)
    (hpm : parseMsg mc = .ok m) :
    parseLoop (C ++ body ++ T) C.length (body.length : Int) consumed jobs =
      parseLoop (C ++ body ++ T) (C.length + body.length) (-1)
        (C.length + body.length) (jobs ++ [m]) := by
  rw [parseLoop_unfold]
  have hhs : headerStage (C ++ body ++ T) C.length (body.length : Int) =
      .stage C.length body.length := by
    unfold headerStage
    rw [if_neg (by omega)]
    simp
  have hex : ((C ++ body ++ T).drop C.length).take body.length = body := by
    rw [List.append_assoc, List.drop_left, List.take_left]
  have hstep : loopStep (C ++ body ++ T) C.length (body.length : Int) consumed jobs =
      .inr (C.length + body.length, C.length + body.length, jobs ++ [m]) := by
    simp only [loopStep, hhs]
    rw [if_neg (by simp only [List.length_append]; omega)]
    simp only [hex, hdec, hpm]
  rw [hstep]

theorem parseLoop_frame (C : List Nat) (f : List Nat) (T : List Nat) (m : Msg)
    (hf : GoodFrame f m) (c0 : Nat) (jobs : List Msg) :
    parseLoop (C ++ f ++ T) C.length (-1) c0 jobs =
      parseLoop (C ++ f ++ T) (C.length + f.length) (-1) (C.length + f.length)
        (jobs ++ [m]) := by
  obtain ⟨ds, body, mc, rfl, hds, hdig, hlen, hdec, hpm⟩ := hf
  have hlen1 : 1 ≤ ds.length := List.length_pos.mpr hds
  have hbuf : C ++ (64 :: (ds ++ 58 :: body)) ++ T =
      C ++ 64 :: (ds ++ 58 :: (body ++ T)) := by simp
  have hhs : headerStage (C ++ (64 :: (ds ++ 58 :: body)) ++ T) C.length (-1) =
      .stage (C.length + ds.length + 2) body.length := by
    unfold headerStage
    rw [if_pos (by omega : (-1 : Int) < 0),
      if_pos (by simp only [List.length_append, List.length_cons]; omega)]
    have hg : (C ++ (64 :: (ds ++ 58 :: body)) ++ T).getD C.length 0 = 64 := by
      rw [hbuf]
      exact getD_at_length C 64 _ 0
    rw [if_pos hg]
    have hdrop : (C ++ (64 :: (ds ++ 58 :: body)) ++ T).drop (C.length + 1) =
        ds ++ 58 :: (body ++ T) := by
      rw [hbuf, drop_cons_at_length]
    rw [hdrop, scanSize_digits_aux C.length (body ++ T) ds (C.length + 1) 0 hdig
      (by omega)]
    have hidx : C.length + 1 + ds.length + 1 = C.length + ds.length + 2 := by omega
    rw [hidx, ← hlen]
  rw [parseLoop_unfold]
  have hex : (((C ++ (64 :: (ds ++ 58 :: body)) ++ T).drop
      (C.length + ds.length + 2)).take body.length) = body := by
    have hsplit : C ++ (64 :: (ds ++ 58 :: body)) ++ T =
        (C ++ 64 :: (ds ++ [58])) ++ (body ++ T) := by simp
    have hplen : C.length + ds.length + 2 = (C ++ 64 :: (ds ++ [58])).length := by
      simp only [List.length_append, List.length_cons, List.length_nil]
      omega
    rw [hsplit, hplen, List.drop_left, List.take_left]
  have hstep : loopStep (C ++ (64 :: (ds ++ 58 :: body)) ++ T) C.length (-1) c0 jobs =
      .inr (C.length + ds.length + 2 + body.length,
            C.length + ds.length + 2 + body.length, jobs ++ [m]) := by
    simp only [loopStep, hhs]
    rw [if_neg (by simp only [List.length_append, List.length_cons]; omega)]
    simp only [hex, hdec, hpm]
  rw [hstep]
  have hflen : C.length + ds.length + 2 + body.length =
      C.length + (64 :: (ds ++ 58 :: body)).length := by
    simp only [List.length_cons, List.length_append]
    omega
  rw [hflen]

theorem parseLoop_at_residue (D R : List Nat) (off1 : Nat) (siz1 : Int)
    (hR : ResidueSt R off1 siz1) (c0 : Nat) (jobs : List Msg) :
    parseLoop (D ++ R) D.length (-1) c0 jobs =
      (⟨D.length + off1, siz1, c0, jobs⟩, none) := by
  rcases hR with ⟨hshape, rfl, rfl⟩ | ⟨ds, pb, rfl, hds, hdig, hpb, rfl, rfl⟩
  · rcases hshape with rfl | ⟨ds, rfl, hdig⟩
    · rw [parseLoop_unfold]
      have hhs : headerStage (D ++ []) D.length (-1) = .brk := by
        unfold headerStage
        rw [if_pos (by omega : (-1 : Int) < 0), if_neg (by simp)]
      have hstep : loopStep (D ++ []) D.length (-1) c0 jobs =
          .inl (⟨D.length, -1, c0, jobs⟩, none) := by
        simp only [loopStep, hhs]
      rw [hstep]
      simp
    · rw [parseLoop_unfold]
      have hhs : headerStage (D ++ 64 :: ds) D.length (-1) = .brk := by
        unfold headerStage
        rw [if_pos (by omega : (-1 : Int) < 0),
          if_pos (by simp only [List.length_append, List.length_cons]; omega),
          if_pos (getD_at_length D 64 ds 0), drop_cons_at_length,
          scanSize_digits_none D.length ds _ _ hdig]
      have hstep : loopStep (D ++ 64 :: ds) D.length (-1) c0 jobs =
          .inl (⟨D.length, -1, c0, jobs⟩, none) := by
        simp only [loopStep, hhs]
      rw [hstep]
      simp
  · have hlen1 : 1 ≤ ds.length := List.length_pos.mpr hds
    rw [parseLoop_unfold]
    have hhs : headerStage (D ++ 64 :: (ds ++ 58 :: pb)) D.length (-1) =
        .stage (D.length + ds.length + 2) (digitsAcc 0 ds) := by
      unfold headerStage
      rw [if_pos (by omega : (-1 : Int) < 0),
        if_pos (by simp only [List.length_append, List.length_cons]; omega),
        if_pos (getD_at_length D 64 _ 0), drop_cons_at_length,
        scanSize_digits_aux D.length pb ds (D.length + 1) 0 hdig (by omega)]
      have hidx : D.length + 1 + ds.length + 1 = D.length + ds.length + 2 := by omega
      rw [hidx]
    have hstep : loopStep (D ++ 64 :: (ds ++ 58 :: pb)) D.length (-1) c0 jobs =
        .inl (⟨D.length + ds.length + 2, (digitsAcc 0 ds : Int), c0, jobs⟩, none) := by
      simp only [loopStep, hhs]
      rw [if_pos (by
        simp only [List.length_append, List.length_cons]
        omega)]
    rw [hstep]
    have hoff : D.length + ds.length + 2 = D.length + (ds.length + 2) := by omega
    rw [hoff]

theorem parseLoop_frames (fs : List (List Nat × Msg)) : ∀ (C T : List Nat)
    (c0 : Nat) (jobs : List Msg), GoodList fs →
    parseLoop (C ++ bytesOf fs ++ T) C.length (-1) c0 jobs =
      parseLoop (C ++ bytesOf fs ++ T) (C.length + (bytesOf fs).length) (-1)
        (if fs = [] then c0 else C.length + (bytesOf fs).length)
        (jobs ++ msgsOf fs) := by
  induction fs with
  | nil =>
    intro C T c0 jobs _
    simp [bytesOf, msgsOf]
  | cons g fs ih =>
    intro C T c0 jobs hgood
    have hg : GoodFrame g.1 g.2 := hgood g (List.mem_cons_self _ _)
    have hfs : GoodList fs := fun p hp => hgood p (List.mem_cons_of_mem _ hp)
    have hbytes : bytesOf (g :: fs) = g.1 ++ bytesOf fs := by
      simp [bytesOf]
    rw [hbytes]
    have h1 : C ++ (g.1 ++ bytesOf fs) ++ T = C ++ g.1 ++ (bytesOf fs ++ T) := by
      simp
    rw [h1, parseLoop_frame C g.1 (bytesOf fs ++ T) g.2 hg c0 jobs]
    have h2 : C ++ g.1 ++ (bytesOf fs ++ T) = (C ++ g.1) ++ bytesOf fs ++ T := by
      simp
    have h3 : C.length + g.1.length = (C ++ g.1).length := by simp
    rw [h2, h3, ih (C ++ g.1) T ((C ++ g.1).length) (jobs ++ [g.2]) hfs]
    have h4 : (C ++ g.1).length + (bytesOf fs).length =
        C.length + (g.1 ++ bytesOf fs).length := by
      simp only [List.length_append]
      omega
    have h5 : (jobs ++ [g.2]) ++ msgsOf fs = jobs ++ msgsOf (g :: fs) := by
      simp [msgsOf]
    rw [h4, h5]
    by_cases hfs0 : fs = []
    · subst hfs0
      rw [if_pos rfl, if_neg (by simp : ¬(g :: ([] : List (List Nat × Msg))) = [])]
      have h6 : (C ++ g.1).length = C.length + (g.1 ++ bytesOf ([] : List (List Nat × Msg))).length := by
        simp [bytesOf]
      rw [h6]
    · rw [if_neg hfs0, if_neg (by simp : ¬(g :: fs) = [])]

/-! ## The parse loop on a canonical residue plus new bytes -/

theorem parseLoop_from_residue (R0 : List Nat) (off0 : Nat) (siz0 : Int)
    (hR0 : ResidueSt R0 off0 siz0) (c : List Nat) (fs : List (List Nat × Msg))
    (hfs : GoodList fs) (R1 : List Nat) (off1 : Nat) (siz1 : Int)
    (hR1 : ResidueSt R1 off1 siz1) (heq : R0 ++ c = bytesOf fs ++ R1)
    (jobs : List Msg) :
    parseLoop (R0 ++ c) off0 siz0 0 jobs =
      (⟨(bytesOf fs).length + off1, siz1,
        if fs = [] then 0 else (bytesOf fs).length, jobs ++ msgsOf fs⟩, none) := by
  rcases hR0 with ⟨_, rfl, rfl⟩ | ⟨ds, pb, rfl, hds, hdig, hpb, rfl, rfl⟩
  · -- no parsed header yet: `_off` is at the frame start; process the frames
    rw [heq]
    have hframes := parseLoop_frames fs [] R1 0 jobs hfs
    simp only [List.nil_append, List.length_nil, Nat.zero_add] at hframes
    rw [hframes, parseLoop_at_residue (bytesOf fs) R1 off1 siz1 hR1 _ _]
  · -- a header was parsed: `_siz` holds the expected body length
    have hlhs : (64 :: (ds ++ 58 :: pb)) ++ c = 64 :: (ds ++ 58 :: (pb ++ c)) := by
      simp
    cases fs with
    | nil =>
      simp only [bytesOf, List.map_nil, List.flatten_nil, List.nil_append] at heq
      rcases hR1 with ⟨hshape1, rfl, rfl⟩ | ⟨ds1, pb1, rfl, hds1, hdig1, hpb1, rfl, rfl⟩
      · rcases hshape1 with rfl | ⟨ds1, rfl, hdig1⟩
        · rw [hlhs] at heq
          simp at heq
        · rw [hlhs] at heq
          simp only [List.cons.injEq] at heq
          have hmem : (58 : Nat) ∈ ds1 := by
            rw [← heq.2]
            simp
          have := hdig1 58 hmem
          omega
      · rw [hlhs] at heq
        simp only [List.cons.injEq] at heq
        obtain ⟨hdseq, hpbeq⟩ := digitRunEq ds ds1 (pb ++ c) pb1 hdig hdig1 heq.2
        rw [← hdseq] at hpb1 ⊢
        rw [← hpbeq] at hpb1
        have hshort : ((64 :: (ds ++ 58 :: pb)) ++ c).length <
            (ds.length + 2) + digitsAcc 0 ds := by
          simp only [List.cons_append, List.length_cons, List.length_append]
          simp only [List.length_append] at hpb1
          omega
        rw [parseLoop_body_short _ _ _ hshort 0 jobs]
        simp [bytesOf, msgsOf]
    | cons g fs' =>
      obtain ⟨dsg, bodyg, mcg, hg1, hdsg, hdigg, hleng, hdecg, hpmg⟩ :=
        hfs g (List.mem_cons_self _ _)
      have hfs' : GoodList fs' := fun p hp => hfs p (List.mem_cons_of_mem _ hp)
      have hbytes : bytesOf (g :: fs') = g.1 ++ bytesOf fs' := by simp [bytesOf]
      have hrhs : bytesOf (g :: fs') ++ R1 =
          64 :: (dsg ++ 58 :: (bodyg ++ (bytesOf fs' ++ R1))) := by
        rw [hbytes, hg1]
        simp
      have heq' : ds ++ 58 :: (pb ++ c) =
          dsg ++ 58 :: (bodyg ++ (bytesOf fs' ++ R1)) := by
        have h0 := heq
        rw [hlhs, hrhs] at h0
        simpa using h0
      obtain ⟨hdseq, htail⟩ :=
        digitRunEq ds dsg (pb ++ c) (bodyg ++ (bytesOf fs' ++ R1)) hdig hdigg heq'
      rw [← hdseq] at hleng hg1
      have hpblen : pb.length ≤ bodyg.length := by omega
      have htake : bodyg.take pb.length = pb := by
        have hcong := congrArg (List.take pb.length) htail
        rw [List.take_left, List.take_append_of_le_length hpblen] at hcong
        exact hcong.symm
      have hbody_split : bodyg = pb ++ bodyg.drop pb.length := by
        conv_lhs => rw [← List.take_append_drop pb.length bodyg]
        rw [htake]
      have hc : c = bodyg.drop pb.length ++ (bytesOf fs' ++ R1) := by
        have h0 := htail
        rw [hbody_split] at h0
        simp only [List.append_assoc] at h0
        exact List.append_cancel_left h0
      have hbufshape : (64 :: (ds ++ 58 :: pb)) ++ c =
          (64 :: (ds ++ [58])) ++ bodyg ++ (bytesOf fs' ++ R1) := by
        rw [hc]
        conv_rhs => rw [hbody_split]
        simp
      rw [hbufshape]
      have hC2 : ds.length + 2 = (64 :: (ds ++ [58])).length := by
        simp only [List.length_cons, List.length_append, List.length_nil]
      have hsz : (digitsAcc 0 ds : Int) = (bodyg.length : Int) := by
        rw [hleng]
      rw [hC2, hsz,
        parseLoop_body_step (64 :: (ds ++ [58])) bodyg (bytesOf fs' ++ R1) 0 jobs
          mcg g.2 hdecg hpmg]
      have hgbuf : (64 :: (ds ++ [58])) ++ bodyg ++ (bytesOf fs' ++ R1) =
          g.1 ++ bytesOf fs' ++ R1 := by
        rw [hg1]
        simp
      have hglen : (64 :: (ds ++ [58])).length + bodyg.length = g.1.length := by
        rw [hg1]
        simp only [List.length_cons, List.length_append, List.length_nil]
        omega
      rw [hgbuf, hglen,
        parseLoop_frames fs' g.1 R1 g.1.length (jobs ++ [g.2]) hfs']
      have hb2 : g.1 ++ bytesOf fs' ++ R1 = (g.1 ++ bytesOf fs') ++ R1 := by simp
      have ho2 : g.1.length + (bytesOf fs').length = (g.1 ++ bytesOf fs').length := by
        simp
      rw [hb2, ho2, parseLoop_at_residue (g.1 ++ bytesOf fs') R1 off1 siz1 hR1 _ _]
      by_cases hfs'0 : fs' = []
      · subst hfs'0
        simp [bytesOf, msgsOf]
      · rw [if_neg hfs'0, if_neg (by simp : ¬(g :: fs') = [])]
        simp [bytesOf, msgsOf]

/-! ## One receive trigger on a canonical state -/

theorem bytesOf_append (a b : List (List Nat × Msg)) :
    bytesOf (a ++ b) = bytesOf a ++ bytesOf b := by
  simp [bytesOf]

theorem msgsOf_append (a b : List (List Nat × Msg)) :
    msgsOf (a ++ b) = msgsOf a ++ msgsOf b := by
  simp [msgsOf]

theorem bytesOf_pos (fs : List (List Nat × Msg)) (hfs : GoodList fs)
    (h0 : fs ≠ []) : 0 < (bytesOf fs).length := by
  obtain ⟨g, fs', rfl⟩ := List.exists_cons_of_ne_nil h0
  obtain ⟨ds, body, mc, hg1, _⟩ := hfs g (List.mem_cons_self _ _)
  simp [bytesOf, hg1]

theorem receive_residue (cnt : Nat) (R0 : List Nat) (off0 : Nat) (siz0 : Int)
    (jobs : List Msg) (cl : Bool) (hR0 : ResidueSt R0 off0 siz0)
    (c : List Nat) (fs : List (List Nat × Msg)) (hfs : GoodList fs)
    (R1 : List Nat) (off1 : Nat) (siz1 : Int) (hR1 : ResidueSt R1 off1 siz1)
    (heq : R0 ++ c = bytesOf fs ++ R1) :
    Chan.receive ⟨cnt, R0, off0, siz0, jobs, cl⟩ c =
      (⟨cnt, R1, off1, siz1, jobs ++ msgsOf fs, cl⟩, none) := by
  unfold Chan.receive
  rw [parseLoop_from_residue R0 off0 siz0 hR0 c fs hfs R1 off1 siz1 hR1 heq jobs]
  by_cases h0 : fs = []
  · subst h0
    have heq' : R0 ++ c = R1 := by simpa [bytesOf] using heq
    simp [receiveGo, bytesOf, msgsOf, heq']
  · have hpos : 0 < (bytesOf fs).length := bytesOf_pos fs hfs h0
    simp only [receiveGo]
    rw [if_neg h0]
    rw [if_pos hpos]
    have hdrop : (R0 ++ c).drop (bytesOf fs).length = R1 := by
      rw [heq, List.drop_left]
    have hoff : (bytesOf fs).length + off1 - (bytesOf fs).length = off1 := by omega
    rw [hdrop, hoff]

/-! ## Splitting a received prefix of a frame stream -/

theorem goodPrefixResidue (f : List Nat) (m : Msg) (hf : GoodFrame f m)
    (P t : List Nat) (hpre : P ++ t = f) (hlt : P.length < f.length) :
    ∃ off siz, ResidueSt P off siz := by
  obtain ⟨ds, body, mc, rfl, hds, hdig, hlen, _, _⟩ := hf
  cases P with
  | nil => exact ⟨0, -1, Or.inl ⟨Or.inl rfl, rfl, rfl⟩⟩
  | cons p P' =>
    have hinj : p = 64 ∧ P' ++ t = ds ++ 58 :: body := by simpa using hpre
    obtain ⟨rfl, ht'⟩ := hinj
    by_cases hlen2 : P'.length ≤ ds.length
    · have hPtake : P' = ds.take P'.length := by
        have hcong := congrArg (List.take P'.length) ht'
        rw [List.take_left, List.take_append_of_le_length hlen2] at hcong
        exact hcong
      refine ⟨0, -1, Or.inl ⟨Or.inr ⟨P', rfl, ?_⟩, rfl, rfl⟩⟩
      intro d hd
      rw [hPtake] at hd
      exact hdig d (List.take_subset _ _ hd)
    · push_neg at hlen2
      have h1 : P'.take (ds.length + 1) = ds ++ [58] := by
        have hcong := congrArg (List.take (ds.length + 1)) ht'
        rw [List.take_append_of_le_length (by omega)] at hcong
        have hsplit : ds ++ 58 :: body = (ds ++ [58]) ++ body := by simp
        rw [hsplit] at hcong
        have hl : ds.length + 1 = (ds ++ [58]).length := by simp
        rw [hl, List.take_left] at hcong
        rw [← hl] at hcong
        exact hcong
      have hP' : P' = (ds ++ [58]) ++ P'.drop (ds.length + 1) := by
        conv_lhs => rw [← List.take_append_drop (ds.length + 1) P']
        rw [h1]
      have hpb : P'.drop (ds.length + 1) ++ t = body := by
        have h0 := ht'
        rw [hP'] at h0
        have hsplit : ds ++ 58 :: body = (ds ++ [58]) ++ body := by simp
        rw [hsplit] at h0
        simp only [List.append_assoc] at h0
        exact List.append_cancel_left (List.append_cancel_left h0)
      refine ⟨ds.length + 2, (digitsAcc 0 ds : Int),
        Or.inr ⟨ds, P'.drop (ds.length + 1), ?_, hds, hdig, ?_, rfl, rfl⟩⟩
      · conv_lhs => rw [hP']
        simp
      · have hlb := congrArg List.length hpb
        have hlP := congrArg List.length hP'
        simp only [List.length_append, List.length_cons, List.length_nil] at hlb hlP hlt
        omega

theorem splitStream : ∀ (fs : List (List Nat × Msg)), GoodList fs →
    ∀ P t, P ++ t = bytesOf fs →
    ∃ fs1 fs2 R off1 siz1, fs = fs1 ++ fs2 ∧ P = bytesOf fs1 ++ R ∧
      ResidueSt R off1 siz1 := by
  intro fs
  induction fs with
  | nil =>
    intro _ P t h
    have hlen := congrArg List.length h
    simp only [bytesOf, List.map_nil, List.flatten_nil, List.length_append,
      List.length_nil] at hlen
    have hP : P = [] := List.length_eq_zero.mp (by omega)
    subst hP
    exact ⟨[], [], [], 0, -1, rfl, by simp [bytesOf], Or.inl ⟨Or.inl rfl, rfl, rfl⟩⟩
  | cons g fs' ih =>
    intro hgood P t h
    have hg := hgood g (List.mem_cons_self _ _)
    have hgood' : GoodList fs' := fun p hp => hgood p (List.mem_cons_of_mem _ hp)
    have hbytes : bytesOf (g :: fs') = g.1 ++ bytesOf fs' := by simp [bytesOf]
    rw [hbytes] at h
    by_cases hlen : g.1.length ≤ P.length
    · have htake : P.take g.1.length = g.1 := by
        have hcong := congrArg (List.take g.1.length) h
        rw [List.take_append_of_le_length hlen, List.take_left] at hcong
        exact hcong
      have hP : P = g.1 ++ P.drop g.1.length := by
        conv_lhs => rw [← List.take_append_drop g.1.length P]
        rw [htake]
      have hrest : P.drop g.1.length ++ t = bytesOf fs' := by
        have h0 := h
        rw [hP] at h0
        simp only [List.append_assoc] at h0
        exact List.append_cancel_left h0
      obtain ⟨fs1, fs2, R, o1, s1, hfs12, hPeq, hres⟩ := ih hgood' _ _ hrest
      refine ⟨g :: fs1, fs2, R, o1, s1, by simp [hfs12], ?_, hres⟩
      conv_lhs => rw [hP]
      rw [hPeq]
      simp [bytesOf]
    · push_neg at hlen
      have htake : g.1.take P.length = P := by
        have hcong := congrArg (List.take P.length) h
        rw [List.take_left, List.take_append_of_le_length (by omega)] at hcong
        exact hcong.symm
      have hPg : P ++ (g.1.drop P.length) = g.1 := by
        conv_rhs => rw [← List.take_append_drop P.length g.1]
        rw [htake]
      obtain ⟨o1, s1, hres⟩ := goodPrefixResidue g.1 g.2 hg P _ hPg hlen
      exact ⟨[], g :: fs', P, o1, s1, rfl, by simp [bytesOf], hres⟩

theorem recvAll_cons_ok (ch ch' : Chan) (c : List Nat) (cs : List (List Nat))
    (h : ch.receive c = (ch', none)) : recvAll ch (c :: cs) = recvAll ch' cs := by
  simp only [recvAll]
  rw [h]

theorem recvAll_residue : ∀ (cs : List (List Nat)) (cnt : Nat) (R0 : List Nat)
    (off0 : Nat) (siz0 : Int) (jobs : List Msg) (cl : Bool)
    (fs : List (List Nat × Msg)),
    ResidueSt R0 off0 siz0 → GoodList fs → R0 ++ cs.flatten = bytesOf fs →
    recvAll ⟨cnt, R0, off0, siz0, jobs, cl⟩ cs =
      (⟨cnt, [], 0, -1, jobs ++ msgsOf fs, cl⟩, none) := by
  intro cs
  induction cs with
  | nil =>
    intro cnt R0 off0 siz0 jobs cl fs hres hgood heq
    simp only [List.flatten_nil, List.append_nil] at heq
    subst heq
    cases fs with
    | nil =>
      rcases hres with ⟨_, rfl, rfl⟩ | ⟨ds, pb, habs, _⟩
      · simp [recvAll, bytesOf, msgsOf]
      · simp [bytesOf] at habs
    | cons g fs' =>
      obtain ⟨dsg, bodyg, mcg, hg1, hdsg, hdigg, hleng, _, _⟩ :=
        hgood g (List.mem_cons_self _ _)
      have hbytes : bytesOf (g :: fs') =
          64 :: (dsg ++ 58 :: (bodyg ++ bytesOf fs')) := by
        have h1 : bytesOf (g :: fs') = g.1 ++ bytesOf fs' := by simp [bytesOf]
        rw [h1, hg1]
        simp
      rcases hres with ⟨hshape, rfl, rfl⟩ | ⟨ds, pb, hR, hds, hdig, hpb, rfl, rfl⟩
      · rcases hshape with habs | ⟨ds1, habs, hdig1⟩
        · rw [hbytes] at habs
          simp at habs
        · rw [hbytes] at habs
          simp only [List.cons.injEq] at habs
          have hm : (58 : Nat) ∈ ds1 := by
            rw [← habs.2]
            simp
          have := hdig1 58 hm
          omega
      · rw [hbytes] at hR
        simp only [List.cons.injEq] at hR
        obtain ⟨hds_eq, hpb_eq⟩ :=
          digitRunEq ds dsg pb (bodyg ++ bytesOf fs') hdig hdigg hR.2.symm
        rw [hds_eq] at hpb
        have hl := congrArg List.length hpb_eq
        simp only [List.length_append] at hl
        omega
  | cons c cs' ih =>
    intro cnt R0 off0 siz0 jobs cl fs hres hgood heq
    have hpre : (R0 ++ c) ++ cs'.flatten = bytesOf fs := by
      simpa [List.append_assoc] using heq
    obtain ⟨fs1, fs2, R1, o1, s1, hfs12, hPeq, hres1⟩ :=
      splitStream fs hgood _ _ hpre
    have hgood1 : GoodList fs1 := by
      rw [hfs12] at hgood
      exact fun p hp => hgood p (by simp [hp])
    have hgood2 : GoodList fs2 := by
      rw [hfs12] at hgood
      exact fun p hp => hgood p (by simp [hp])
    have hrecv := receive_residue cnt R0 off0 siz0 jobs cl hres c fs1 hgood1
      R1 o1 s1 hres1 hPeq
    rw [recvAll_cons_ok _ _ _ _ hrecv]
    have hrest : R1 ++ cs'.flatten = bytesOf fs2 := by
      rw [hfs12, bytesOf_append] at hpre
      rw [hPeq] at hpre
      simp only [List.append_assoc] at hpre
      exact List.append_cancel_left hpre
    rw [ih cnt R1 o1 s1 (jobs ++ msgsOf fs1) cl fs2 hres1 hgood2 hrest]
    rw [hfs12, msgsOf_append]
    simp

/-! ## The encoder produces well-formed frames -/

theorem goodFrame_encodeFrame (cat : List Nat) (num : Int) (msg : List Nat)
    (hcat : 58 ∉ cat) (hvc : ValidText cat) (hvm : ValidText msg) :
    GoodFrame (encodeFrame cat num msg) ⟨cat, num, msg⟩ := by
  refine ⟨natToStr (encodeBody cat num msg).length, encodeBody cat num msg,
    cat ++ 58 :: (intToStr num ++ 58 :: msg), ?_, natToStr_ne_nil _,
    natToStr_digits _, (digitsAcc_natToStr _).symm, ?_,
    parseMsg_encoded cat num msg hcat⟩
  · unfold encodeFrame encodeHeader
    simp
  · unfold encodeBody
    apply utf8Decode_encode
    intro x hx
    simp only [List.mem_append, List.mem_cons] at hx
    rcases hx with hx | rfl | hx | rfl | hx
    · exact hvc x hx
    · exact Or.inl (by omega)
    · have := intToStr_mem num x hx
      rcases this with rfl | hb
      · exact Or.inl (by omega)
      · exact Or.inl (by omega)
    · exact Or.inl (by omega)
    · exact hvm x hx

/-! ## The receive trigger never touches the serial counter or the transport -/

theorem receive_cnt (ch : Chan) (c : List Nat) :
    (ch.receive c).1.cnt = ch.cnt ∧ (ch.receive c).1.ioClosed = ch.ioClosed := by
  unfold Chan.receive
  rcases parseLoop (ch.buf ++ c) ch.off ch.siz 0 ch.jobs with ⟨st, err⟩
  cases err with
  | none =>
    simp only [receiveGo]
    split_ifs <;> exact ⟨rfl, rfl⟩
  | some e => exact ⟨rfl, rfl⟩

/-- Serials returned by a run of operations: all above the starting counter,
and strictly increasing. -/
theorem runOps_serials (ops : List ChanOp) : ∀ ch : Chan,
    List.Chain' (· < ·) (runOps ch ops).2 ∧
      (∀ n ∈ (runOps ch ops).2, ch.cnt < n) ∧ ch.cnt ≤ (runOps ch ops).1.cnt := by
  induction ops with
  | nil =>
    intro ch
    simp [runOps]
  | cons op ops ih =>
    intro ch
    cases op with
    | command s =>
      obtain ⟨hchain, hall, hcnt⟩ := ih { ch with cnt := ch.cnt + 1 }
      simp only [runOps, runOp, Chan.send_command, Chan.send_serial] at hchain hall hcnt ⊢
      refine ⟨?_, ?_, by simpa using by omega⟩
      · rw [List.chain'_cons']
        refine ⟨?_, hchain⟩
        intro y hy
        have := hall y (List.mem_of_mem_head? hy)
        simp only at this
        omega
      · intro n hn
        simp only [List.mem_cons] at hn
        rcases hn with rfl | hn
        · omega
        · have := hall n hn
          simp only at this
          omega
    | event s =>
      obtain ⟨hchain, hall, hcnt⟩ := ih { ch with cnt := ch.cnt + 1 }
      simp only [runOps, runOp, Chan.send_event, Chan.send_serial] at hchain hall hcnt ⊢
      refine ⟨?_, ?_, by simpa using by omega⟩
      · rw [List.chain'_cons']
        refine ⟨?_, hchain⟩
        intro y hy
        have := hall y (List.mem_of_mem_head? hy)
        simp only at this
        omega
      · intro n hn
        simp only [List.mem_cons] at hn
        rcases hn with rfl | hn
        · omega
        · have := hall n hn
          simp only at this
          omega
    | serial cat msg =>
      obtain ⟨hchain, hall, hcnt⟩ := ih { ch with cnt := ch.cnt + 1 }
      simp only [runOps, runOp, Chan.send_serial] at hchain hall hcnt ⊢
      refine ⟨?_, ?_, by simpa using by omega⟩
      · rw [List.chain'_cons']
        refine ⟨?_, hchain⟩
        intro y hy
        have := hall y (List.mem_of_mem_head? hy)
        simp only at this
        omega
      · intro n hn
        simp only [List.mem_cons] at hn
        rcases hn with rfl | hn
        · omega
        · have := hall n hn
          simp only at this
          omega
    | result n s =>
      obtain ⟨hchain, hall, hcnt⟩ := ih ch
      simp only [runOps, runOp, Chan.send_result] at hchain hall hcnt ⊢
      exact ⟨hchain, hall, hcnt⟩
    | failure n s =>
      obtain ⟨hchain, hall, hcnt⟩ := ih ch
      simp only [runOps, runOp, Chan.send_error] at hchain hall hcnt ⊢
      exact ⟨hchain, hall, hcnt⟩
    | trigger c =>
      obtain ⟨hchain, hall, hcnt⟩ := ih (ch.receive c).1
      have hc := (receive_cnt ch c).1
      simp only [runOps, runOp] at hchain hall hcnt ⊢
      refine ⟨hchain, ?_, ?_⟩
      · intro n hn
        have := hall n hn
        omega
      · omega

/-! ## The claims -/

/-- C1.  Round-trip: for every triple `(cat, num, msg)` with `cat` a text
containing no `':'` and `cat`, `msg` made of Unicode scalar values, encoding
with `send_format` and feeding the produced bytes to one receive trigger on
a fresh channel enqueues exactly one `Msg` equal to the original triple in
the job queue (and succeeds, leaving a compacted empty buffer). -/
theorem c1_roundtrip (cat : List Nat) (num : Int) (msg : List Nat)
    (hcat : 58 ∉ cat) (hvc : ValidText cat) (hvm : ValidText msg) :
    Chan.receive chan0 (encodeFrame cat num msg) =
      ({ chan0 with jobs := [⟨cat, num, msg⟩] }, none) := by
  have hgood : GoodFrame (encodeFrame cat num msg) ⟨cat, num, msg⟩ :=
    goodFrame_encodeFrame cat num msg hcat hvc hvm
  have h := receive_residue 0 [] 0 (-1) [] false (Or.inl ⟨Or.inl rfl, rfl, rfl⟩)
    (encodeFrame cat num msg) [(encodeFrame cat num msg, ⟨cat, num, msg⟩)]
    (by
      intro p hp
      simp only [List.mem_singleton] at hp
      rw [hp]
      exact hgood)
    [] 0 (-1) (Or.inl ⟨Or.inl rfl, rfl, rfl⟩) (by simp [bytesOf])
  simpa [msgsOf, chan0] using h

/-- C1 witness: a concrete round-trip, with a negative serial and a payload
containing both a colon and a multi-byte character. -/
theorem c1_roundtrip_witness :
    (58 ∉ ([65] : List Nat)) ∧ ValidText [65] ∧ ValidText [58, 955] ∧
    Chan.receive chan0 (encodeFrame [65] (-12) [58, 955]) =
      ({ chan0 with jobs := [⟨[65], -12, [58, 955]⟩] }, none) :=
  ⟨by decide, by decide, by decide,
   c1_roundtrip [65] (-12) [58, 955] (by decide) (by decide) (by decide)⟩

/-- C2.  Fragmentation invariance: delivering the bytes of a sequence of
well-formed frames as one chunk, or split at arbitrary byte boundaries
across many receive triggers, produces the identical ordered sequence of
decoded messages in the job queue, with no error. -/
theorem c2_fragmentation_invariance (fs : List (List Nat × Msg))
    (cs : List (List Nat)) (hfs : GoodList fs) (hcs : cs.flatten = bytesOf fs) :
    recvAll chan0 cs = recvAll chan0 [bytesOf fs] ∧
    (recvAll chan0 cs).1.jobs = msgsOf fs ∧ (recvAll chan0 cs).2 = none := by
  have hc : chan0 = ⟨0, [], 0, -1, [], false⟩ := rfl
  have h1 := recvAll_residue cs 0 [] 0 (-1) [] false fs
    (Or.inl ⟨Or.inl rfl, rfl, rfl⟩) hfs (by simpa using hcs)
  have h2 := recvAll_residue [bytesOf fs] 0 [] 0 (-1) [] false fs
    (Or.inl ⟨Or.inl rfl, rfl, rfl⟩) hfs (by simp)
  rw [hc, h1, h2]
  simp

/-- C2 witness: two concrete frames delivered in five chunks split inside
the first header, inside bodies, and across the frame boundary (with an
empty chunk), versus one chunk. -/
theorem c2_fragmentation_witness :
    recvAll chan0
        [[64], [56, 58, 69, 86], [], [84, 58, 49, 58, 104, 105, 64, 56, 58, 67],
         [77, 68, 58, 50, 58, 103, 111]] =
      recvAll chan0
        [bytesOf [([64, 56, 58, 69, 86, 84, 58, 49, 58, 104, 105],
                   ⟨[69, 86, 84], 1, [104, 105]⟩),
                  ([64, 56, 58, 67, 77, 68, 58, 50, 58, 103, 111],
                   ⟨[67, 77, 68], 2, [103, 111]⟩)]] ∧
    (recvAll chan0
        [[64], [56, 58, 69, 86], [], [84, 58, 49, 58, 104, 105, 64, 56, 58, 67],
         [77, 68, 58, 50, 58, 103, 111]]).1.jobs =
      msgsOf [([64, 56, 58, 69, 86, 84, 58, 49, 58, 104, 105],
               ⟨[69, 86, 84], 1, [104, 105]⟩),
              ([64, 56, 58, 67, 77, 68, 58, 50, 58, 103, 111],
               ⟨[67, 77, 68], 2, [103, 111]⟩)] ∧
    (recvAll chan0
        [[64], [56, 58, 69, 86], [], [84, 58, 49, 58, 104, 105, 64, 56, 58, 67],
         [77, 68, 58, 50, 58, 103, 111]]).2 = none :=
  c2_fragmentation_invariance
    [([64, 56, 58, 69, 86, 84, 58, 49, 58, 104, 105], ⟨[69, 86, 84], 1, [104, 105]⟩),
     ([64, 56, 58, 67, 77, 68, 58, 50, 58, 103, 111], ⟨[67, 77, 68], 2, [103, 111]⟩)]
    [[64], [56, 58, 69, 86], [], [84, 58, 49, 58, 104, 105, 64, 56, 58, 67],
     [77, 68, 58, 50, 58, 103, 111]]
    (by
      intro p hp
      simp only [List.mem_cons, List.mem_singleton, List.not_mem_nil] at hp
      rcases hp with rfl | rfl | hp
      · exact ⟨[56], [69, 86, 84, 58, 49, 58, 104, 105],
          [69, 86, 84, 58, 49, 58, 104, 105], rfl, by decide, by decide, by decide,
          by decide, by rfl⟩
      · exact ⟨[56], [67, 77, 68, 58, 50, 58, 103, 111],
          [67, 77, 68, 58, 50, 58, 103, 111], rfl, by decide, by decide, by decide,
          by decide, by rfl⟩
      · exact absurd hp (by decide))
    (by decide)

/-- C3 (code bug).  On a fatal framing violation the code intends to close
the transport and re-raise the framing error, but `Channel` defines no
`disconnect` method, so the handler's `self.disconnect()` itself raises
`AttributeError`: the propagated error is the `AttributeError` (with the
`BadMessage` only as exception context) and the transport is never closed.
Evaluated here at the failing input `b"X"` (byte 0x58, wrong marker). -/
theorem c3_error_propagation :
    Chan.receive chan0 [88] =
      ({ chan0 with buf := [88] },
       some (.attributeError "disconnect"
         (.badMessage "Missing begin message marker"))) ∧
    (Chan.receive chan0 [88]).1.ioClosed = false := by
  constructor <;> rfl

/-- C4.  Header parsing: with a header awaited (`_siz < 0`) and at least one
unconsumed byte, a byte other than `'@'` at the cursor raises the fatal
"Missing begin message marker" error immediately, however truncated the
buffer; `'@'` immediately followed by `':'` raises "No size specified"; and
if the buffer holds only `'@'` followed by digits (no separator yet), the
loop stops with no error and the state unchanged, waiting for more data. -/
theorem c4_header_parsing :
    (∀ (C : List Nat) (b : Nat) (rest : List Nat) (siz : Int) (consumed : Nat)
        (jobs : List Msg), siz < 0 → b ≠ 64 →
      parseLoop (C ++ b :: rest) C.length siz consumed jobs =
        (⟨C.length, siz, consumed, jobs⟩,
         some (.badMessage "Missing begin message marker"))) ∧
    (∀ (C rest : List Nat) (siz : Int) (consumed : Nat) (jobs : List Msg),
        siz < 0 →
      parseLoop (C ++ 64 :: 58 :: rest) C.length siz consumed jobs =
        (⟨C.length, siz, consumed, jobs⟩, some (.badMessage "No size specified"))) ∧
    (∀ (C ds : List Nat) (siz : Int) (consumed : Nat) (jobs : List Msg),
        siz < 0 → AllDigits ds →
      parseLoop (C ++ 64 :: ds) C.length siz consumed jobs =
        (⟨C.length, siz, consumed, jobs⟩, none)) := by
  refine ⟨?_, ?_, ?_⟩
  · intro C b rest siz consumed jobs hs hb
    rw [parseLoop_unfold]
    have hhs : headerStage (C ++ b :: rest) C.length siz =
        .err (.badMessage "Missing begin message marker") := by
      unfold headerStage
      rw [if_pos hs,
        if_pos (by simp only [List.length_append, List.length_cons]; omega),
        if_neg (by rw [getD_at_length]; exact hb)]
    have hstep : loopStep (C ++ b :: rest) C.length siz consumed jobs =
        .inl (⟨C.length, siz, consumed, jobs⟩,
          some (.badMessage "Missing begin message marker")) := by
      simp only [loopStep, hhs]
    rw [hstep]
  · intro C rest siz consumed jobs hs
    rw [parseLoop_unfold]
    have hhs : headerStage (C ++ 64 :: 58 :: rest) C.length siz =
        .err (.badMessage "No size specified") := by
      unfold headerStage
      rw [if_pos hs,
        if_pos (by simp only [List.length_append, List.length_cons]; omega),
        if_pos (getD_at_length C 64 _ 0), drop_cons_at_length, scanSize_cons,
        if_neg (by omega), if_pos rfl, if_pos (le_refl _)]
    have hstep : loopStep (C ++ 64 :: 58 :: rest) C.length siz consumed jobs =
        .inl (⟨C.length, siz, consumed, jobs⟩,
          some (.badMessage "No size specified")) := by
      simp only [loopStep, hhs]
    rw [hstep]
  · intro C ds siz consumed jobs hs hdig
    rw [parseLoop_unfold]
    have hhs : headerStage (C ++ 64 :: ds) C.length siz = .brk := by
      unfold headerStage
      rw [if_pos hs,
        if_pos (by simp only [List.length_append, List.length_cons]; omega),
        if_pos (getD_at_length C 64 _ 0), drop_cons_at_length,
        scanSize_digits_none C.length ds _ _ hdig]
    have hstep : loopStep (C ++ 64 :: ds) C.length siz consumed jobs =
        .inl (⟨C.length, siz, consumed, jobs⟩, none) := by
      simp only [loopStep, hhs]
    rw [hstep]

/-- C4 witness: the three behaviours at concrete buffers `"X"`, `"@:"` and
`"@57"`. -/
theorem c4_header_parsing_witness :
    parseLoop [88] 0 (-1) 0 [] =
      (⟨0, -1, 0, []⟩, some (.badMessage "Missing begin message marker")) ∧
    parseLoop [64, 58] 0 (-1) 0 [] =
      (⟨0, -1, 0, []⟩, some (.badMessage "No size specified")) ∧
    parseLoop [64, 53, 55] 0 (-1) 0 [] = (⟨0, -1, 0, []⟩, none) :=
  ⟨c4_header_parsing.1 [] 88 [] (-1) 0 [] (by decide) (by decide),
   c4_header_parsing.2.1 [] [] (-1) 0 [] (by decide),
   c4_header_parsing.2.2 [] [53, 55] (-1) 0 [] (by decide) (by decide)⟩

/-- C5.  Batch decode: one receive trigger whose buffer holds `k ≥ 2`
complete frames enqueues exactly the `k` messages in arrival order in that
one call; in particular, on a fresh channel, feeding the concatenated
output of `sendEvent("hi")` then `sendCommand("go")` to one receive trigger
enqueues `("EVT", 1, "hi")` then `("CMD", 2, "go")`, in that order. -/
theorem c5_batch_decode :
    (∀ (fs : List (List Nat × Msg)) (cnt : Nat) (jobs0 : List Msg) (cl : Bool),
      GoodList fs → 2 ≤ fs.length →
      Chan.receive ⟨cnt, [], 0, -1, jobs0, cl⟩ (bytesOf fs) =
        (⟨cnt, [], 0, -1, jobs0 ++ msgsOf fs, cl⟩, none)) ∧
    Chan.receive chan0
        ((chan0.send_event [104, 105]).2.1 ++
         ((chan0.send_event [104, 105]).1.send_command [103, 111]).2.1) =
      ({ chan0 with jobs := [⟨[69, 86, 84], 1, [104, 105]⟩,
                            ⟨[67, 77, 68], 2, [103, 111]⟩] }, none) := by
  constructor
  · intro fs cnt jobs0 cl hfs _
    exact receive_residue cnt [] 0 (-1) jobs0 cl (Or.inl ⟨Or.inl rfl, rfl, rfl⟩)
      (bytesOf fs) fs hfs [] 0 (-1) (Or.inl ⟨Or.inl rfl, rfl, rfl⟩) (by simp)
  · rfl

/-- C5 witness: the general batch statement applied to the two concrete
frames of the example. -/
theorem c5_batch_decode_witness :
    GoodList [([64, 56, 58, 69, 86, 84, 58, 49, 58, 104, 105],
               ⟨[69, 86, 84], 1, [104, 105]⟩),
              ([64, 56, 58, 67, 77, 68, 58, 50, 58, 103, 111],
               ⟨[67, 77, 68], 2, [103, 111]⟩)] ∧
    Chan.receive ⟨0, [], 0, -1, [], false⟩
        (bytesOf [([64, 56, 58, 69, 86, 84, 58, 49, 58, 104, 105],
                   ⟨[69, 86, 84], 1, [104, 105]⟩),
                  ([64, 56, 58, 67, 77, 68, 58, 50, 58, 103, 111],
                   ⟨[67, 77, 68], 2, [103, 111]⟩)]) =
      (⟨0, [], 0, -1,
        [] ++ msgsOf [([64, 56, 58, 69, 86, 84, 58, 49, 58, 104, 105],
                       ⟨[69, 86, 84], 1, [104, 105]⟩),
                      ([64, 56, 58, 67, 77, 68, 58, 50, 58, 103, 111],
                       ⟨[67, 77, 68], 2, [103, 111]⟩)], false⟩, none) := by
  have hg : GoodList [([64, 56, 58, 69, 86, 84, 58, 49, 58, 104, 105],
               ⟨[69, 86, 84], 1, [104, 105]⟩),
              ([64, 56, 58, 67, 77, 68, 58, 50, 58, 103, 111],
               ⟨[67, 77, 68], 2, [103, 111]⟩)] := by
    intro p hp
    simp only [List.mem_cons, List.mem_singleton, List.not_mem_nil] at hp
    rcases hp with rfl | rfl | hp
    · exact ⟨[56], [69, 86, 84, 58, 49, 58, 104, 105],
        [69, 86, 84, 58, 49, 58, 104, 105], rfl, by decide, by decide, by decide,
        by decide, by rfl⟩
    · exact ⟨[56], [67, 77, 68, 58, 50, 58, 103, 111],
        [67, 77, 68, 58, 50, 58, 103, 111], rfl, by decide, by decide, by decide,
        by decide, by rfl⟩
    · exact absurd hp (by decide)
  exact ⟨hg, c5_batch_decode.1 _ 0 [] false hg (by decide)⟩

/-- C6 counterexample.  The claim says `sendCommand("go")` from counter 0
writes exactly the bytes `@7:CMD:1:go`; but the body `"CMD:1:go"` is 8
bytes long, so the written header carries the length 8, not 7. -/
theorem c6_send_counterexample :
    (chan0.send_command [103, 111]).2.1 ≠
      [64, 55, 58, 67, 77, 68, 58, 49, 58, 103, 111] := by
  decide

/-- C6 amended: on a channel with serial counter 0, `sendCommand("go")`
writes exactly the bytes `@8:CMD:1:go` and returns 1 (the counter becoming
1). -/
theorem c6_send_command_amended :
    chan0.send_command [103, 111] =
      ({ chan0 with cnt := 1 }, [64, 56, 58, 67, 77, 68, 58, 49, 58, 103, 111], 1) := by
  rfl

/-- C7 counterexample.  The body `"A:bc:d"` passes the boundary check (the
second colon is ≥ 2 characters past the first), but the serial text `"bc"`
makes `int()` raise `ValueError`: the decoder yields no triple in the
claim's "otherwise" case. -/
theorem c7_body_counterexample :
    parseMsg [65, 58, 98, 99, 58, 100] = .error .valueError := by
  rfl

/-- C7 amended.  Body parsing: the decoder raises "Expecting CAT:NUM:MSG"
exactly when the second colon boundary is not at least two characters after
the first; otherwise, when the serial text parses under Python's
`int(s, base=10)` (which accepts Unicode decimal digits and whitespace, an
optional ASCII sign and single underscores between digits) the result is
(text before the first colon, that integer, everything after the second
colon), and when it does not parse the decoder raises a `ValueError`
instead of yielding a triple. -/
theorem c7_body_parsing :
    (∀ msg : List Nat,
      parseMsg msg = .error (.badMessage "Expecting CAT:NUM:MSG") ↔
        serialBoundary msg < catBoundary msg + 2) ∧
    (∀ (msg : List Nat) (n : Int), ¬ serialBoundary msg < catBoundary msg + 2 →
      pyInt (numSlice msg) = some n →
      parseMsg msg = .ok ⟨msg.take (catBoundary msg).toNat, n,
        msg.drop ((serialBoundary msg).toNat + 1)⟩) ∧
    (∀ msg : List Nat, ¬ serialBoundary msg < catBoundary msg + 2 →
      pyInt (numSlice msg) = none → parseMsg msg = .error .valueError) :=
  ⟨parseMsg_badMessage_iff, fun msg n h hp => parseMsg_ok_of msg h n hp,
   parseMsg_valueError_of⟩

/-- C7 witness: the bodies `"A:5:B"` (yields `("A", 5, "B")`), `"A:١:d"`
(the serial is the Arabic-Indic digit one, U+0661, which `int()` parses, so
the decoder yields `("A", 1, "d")`) and `"A:bc:d"` (ValueError). -/
theorem c7_body_parsing_witness :
    (¬ serialBoundary [65, 58, 53, 58, 66] < catBoundary [65, 58, 53, 58, 66] + 2) ∧
    parseMsg [65, 58, 53, 58, 66] = .ok ⟨[65], 5, [66]⟩ ∧
    parseMsg [65, 58, 1633, 58, 100] = .ok ⟨[65], 1, [100]⟩ ∧
    parseMsg [65, 58, 98, 99, 58, 100] = .error .valueError :=
  ⟨by decide,
   c7_body_parsing.2.1 [65, 58, 53, 58, 66] 5 (by decide) (by decide),
   c7_body_parsing.2.1 [65, 58, 1633, 58, 100] 1 (by decide) (by decide),
   c7_body_parsing.2.2 [65, 58, 98, 99, 58, 100] (by decide) (by decide)⟩

/-- C8.  Send contract: whenever `send_format(cat, num, msg)` is called
with a non-string category, non-integer serial or non-string message, a
`TypeError` is raised before any byte is written, and the transport
receives no bytes at all (the write list is empty — no partial frame). -/
theorem c8_send_contract (v1 v2 v3 : PyVal)
    (h : isStr v1 = false ∨ isInt v2 = false ∨ isStr v3 = false) :
    (send_format v1 v2 v3).1 = [] ∧ isTypeErr (send_format v1 v2 v3).2 = true := by
  cases v1 <;> cases v2 <;> cases v3 <;>
    simp_all [send_format, isStr, isInt, isTypeErr]

/-- C8 witness: a non-string category. -/
theorem c8_send_contract_witness :
    (isStr (PyVal.int 0) = false ∨ isInt (PyVal.int 0) = false ∨
      isStr (PyVal.str []) = false) ∧
    ((send_format (.int 0) (.int 0) (.str [])).1 = [] ∧
      isTypeErr (send_format (.int 0) (.int 0) (.str [])).2 = true) :=
  ⟨by decide, c8_send_contract (.int 0) (.int 0) (.str []) (by decide)⟩

/-- C9.  Serial allocation: the counter starts at 0; `send_serial` (hence
`sendCommand` and `sendEvent`) pre-increments it and returns the new value,
so the first auto-numbered send after construction returns 1; over any
sequence of channel operations the returned serials are strictly increasing
(hence never reused); and `sendResult`/`sendError` use the caller-supplied
serial and leave the channel (in particular the counter) unchanged. -/
theorem c9_serial_allocation :
    chan0.cnt = 0 ∧
    (∀ (ch : Chan) (cat msg : List Nat),
      (ch.send_serial cat msg).2.2 = ch.cnt + 1 ∧
      (ch.send_serial cat msg).1.cnt = ch.cnt + 1) ∧
    (∀ (ch : Chan) (cmd : List Nat),
      ch.send_command cmd = ch.send_serial [67, 77, 68] cmd) ∧
    (∀ (ch : Chan) (evt : List Nat),
      ch.send_event evt = ch.send_serial [69, 86, 84] evt) ∧
    (∀ cat msg : List Nat, (chan0.send_serial cat msg).2.2 = 1) ∧
    (∀ (ch : Chan) (n : Int) (v : List Nat),
      (ch.send_result n v).1 = ch ∧ (ch.send_error n v).1 = ch) ∧
    (∀ (ch : Chan) (ops : List ChanOp),
      List.Chain' (· < ·) (runOps ch ops).2) := by
  refine ⟨rfl, ?_, ?_, ?_, ?_, ?_, ?_⟩
  · intro ch cat msg
    exact ⟨rfl, rfl⟩
  · intro ch cmd
    rfl
  · intro ch evt
    rfl
  · intro cat msg
    rfl
  · intro ch n v
    exact ⟨rfl, rfl⟩
  · intro ch ops
    exact (runOps_serials ops ch).1

/-- C10.  Receive is not atomic on failure: when a single receive trigger
decodes the complete well-formed frames `fs` and the remaining bytes `bad`
make the parse loop raise, the messages already decoded stay in the job
queue, the buffer keeps all drained bytes (no compaction) and the cursor
state keeps the partial progress, while the error propagates to the caller
(wrapped in the handler's `AttributeError`, see C3). -/
theorem c10_receive_not_atomic (cnt : Nat) (jobs0 : List Msg) (cl : Bool)
    (fs : List (List Nat × Msg)) (bad : List Nat) (st : LoopSt) (e : PyErr)
    (hfs : GoodList fs)
    (hbad : parseLoop (bytesOf fs ++ bad) (bytesOf fs).length (-1)
      (bytesOf fs).length (jobs0 ++ msgsOf fs) = (st, some e)) :
    Chan.receive ⟨cnt, [], 0, -1, jobs0, cl⟩ (bytesOf fs ++ bad) =
      (⟨cnt, bytesOf fs ++ bad, st.off, st.siz, st.jobs, cl⟩,
       some (.attributeError "disconnect" e)) ∧
    ∃ tail, st.jobs = (jobs0 ++ msgsOf fs) ++ tail := by
  have hframes := parseLoop_frames fs [] bad 0 jobs0 hfs
  simp only [List.nil_append, List.length_nil, Nat.zero_add] at hframes
  have hcons : (if fs = [] then 0 else (bytesOf fs).length) =
      (bytesOf fs).length := by
    by_cases h : fs = []
    · subst h
      simp [bytesOf]
    · rw [if_neg h]
  rw [hcons] at hframes
  constructor
  · unfold Chan.receive
    have hb : (⟨cnt, [], 0, -1, jobs0, cl⟩ : Chan).buf ++ (bytesOf fs ++ bad) =
        bytesOf fs ++ bad := by simp
    rw [hb, hframes, hbad]
    rfl
  · obtain ⟨tail, htail⟩ := parseLoop_jobs_mono (bytesOf fs ++ bad)
      (bytesOf fs).length (-1) (bytesOf fs).length (jobs0 ++ msgsOf fs)
    rw [hbad] at htail
    exact ⟨tail, htail⟩

/-- C10 witness: one good frame followed by a wrong-marker byte: the decoded
message survives the error, the buffer keeps everything, the cursor sits at
the start of the bad frame. -/
theorem c10_receive_not_atomic_witness :
    Chan.receive ⟨0, [], 0, -1, [], false⟩
        (bytesOf [([64, 56, 58, 69, 86, 84, 58, 49, 58, 104, 105],
                   ⟨[69, 86, 84], 1, [104, 105]⟩)] ++ [88]) =
      (⟨0, bytesOf [([64, 56, 58, 69, 86, 84, 58, 49, 58, 104, 105],
                     ⟨[69, 86, 84], 1, [104, 105]⟩)] ++ [88],
         11, -1, [⟨[69, 86, 84], 1, [104, 105]⟩], false⟩,
       some (.attributeError "disconnect"
         (.badMessage "Missing begin message marker"))) ∧
    ∃ tail, ([⟨[69, 86, 84], 1, [104, 105]⟩] : List Msg) =
      ([] ++ msgsOf [([64, 56, 58, 69, 86, 84, 58, 49, 58, 104, 105],
                      ⟨[69, 86, 84], 1, [104, 105]⟩)]) ++ tail := by
  have hg : GoodList [([64, 56, 58, 69, 86, 84, 58, 49, 58, 104, 105],
      ⟨[69, 86, 84], 1, [104, 105]⟩)] := by
    intro p hp
    simp only [List.mem_singleton] at hp
    rw [hp]
    exact ⟨[56], [69, 86, 84, 58, 49, 58, 104, 105],
      [69, 86, 84, 58, 49, 58, 104, 105], rfl, by decide, by decide, by decide,
      by decide, by rfl⟩
  exact c10_receive_not_atomic 0 [] false
    [([64, 56, 58, 69, 86, 84, 58, 49, 58, 104, 105],
      ⟨[69, 86, 84], 1, [104, 105]⟩)] [88]
    ⟨11, -1, 11, [⟨[69, 86, 84], 1, [104, 105]⟩]⟩
    (.badMessage "Missing begin message marker") hg (by decide)

end Xen
